import Mathlib

/-!
Verification development for the lazy-record / protocol-registry core of
`pyannote.database`.

The Python sources are shallowly embedded:

* Python `dict`s become association lists (`List (String × _)`) with
  insertion-order semantics: assignment to an existing key replaces the value
  in place, assignment to a fresh key appends at the end, deletion removes the
  entry.  All records/registries built by the embedded operations keep their
  key lists duplicate-free, mirroring real dicts; theorems about arbitrary
  states carry that representation invariant as a hypothesis where needed.
* `ProtocolFile` (protocol/protocol.py) becomes a structure holding the eager
  store (`_store`), the pending-loader map (`lazy`) and the
  currently-evaluating counter (`evaluating_`, represented as a multiset of
  keys).
* loader functions (the values of `lazy`) are represented by a small
  syntactic type `Loader`; `const`/`numeric` return a fixed value, `getKey`
  reads another key of the same record (the behaviour exercised by
  preprocessors), and `template`/`fileLoader` stand for the file-format
  loaders whose evaluation performs file I/O and is outside this model (their
  evaluation yields the distinguished error `PError.unmodelledEffect`; no theorem
  depends on it).
* fallible operations return `Except PError _`; recursion through loader
  evaluation is bounded by explicit fuel, `PError.fuelOut` marking exhaustion
  (an artefact of the embedding, never produced by the Python code).
-/

set_option linter.unusedVariables false
set_option linter.unreachableTactic false
set_option linter.unusedTactic false

namespace PyannoteDB

/-- Values stored in a `ProtocolFile` and in configuration entries: strings,
integers, Python `None`, lists and string-keyed dicts. -/
inductive Value where
  | str (s : String)
  | int (n : Int)
  | none
  | list (vs : List Value)
  | dict (entries : List (String × Value))

instance : Inhabited Value := ⟨Value.none⟩

/-- True exactly on `Value.list`, mirroring Python's `isinstance(value, list)`. -/
def Value.isList : Value → Bool
  | .list _ => true
  | _ => false

/-- Loader functions registered in the `lazy` map of a `ProtocolFile`.
`const` and `numeric` return a fixed value (`NumericValue` in custom.py),
`getKey k` reads key `k` of the record it is applied to, and
`template`/`fileLoader` stand for the file-backed loaders of custom.py whose
evaluation performs file I/O (not modelled; evaluating them is an error). -/
inductive Loader where
  | const (v : Value)
  | numeric (v : Value)
  | getKey (k : String)
  | template (path : String)
  | fileLoader (path : String)

instance : Inhabited Loader := ⟨Loader.const Value.none⟩

/-- Errors of the embedded operations.  `keyNotFound` is Python's `KeyError`,
`valueError` a `ValueError`, `fileNotFound` a `FileNotFoundError`,
`notImplemented` a `NotImplementedError`, `unmodelledEffect` marks evaluation of a
file-backed loader (outside the model), and `fuelOut` is fuel exhaustion of
the embedding (never corresponds to Python behaviour). -/
inductive PError where
  | keyNotFound
  | valueError
  | fileNotFound
  | notImplemented
  | unmodelledEffect
  | fuelOut
deriving Repr, DecidableEq, Inhabited

/-- Lookup in an association list, mirroring `d[k]`/`k in d` for a Python
dict (first matching entry; duplicate-free lists have at most one). -/
def alookup {κ α : Type} [DecidableEq κ] : List (κ × α) → κ → Option α
  | [], _ => Option.none
  | (k', v) :: rest, k => if k' = k then some v else alookup rest k

/-- Assignment `d[k] = v` on a Python dict: replace in place when the key
exists, append otherwise. -/
def ainsert {κ α : Type} [DecidableEq κ] : List (κ × α) → κ → α → List (κ × α)
  | [], k, v => [(k, v)]
  | (k', v') :: rest, k, v =>
    if k' = k then (k', v) :: rest else (k', v') :: ainsert rest k v

/-- Deletion `del d[k]` on a Python dict (the caller checks presence). -/
def aerase {κ α : Type} [DecidableEq κ] : List (κ × α) → κ → List (κ × α)
  | [], _ => []
  | (k', v') :: rest, k => if k' = k then rest else (k', v') :: aerase rest k

@[simp] theorem alookup_nil {κ α : Type} [DecidableEq κ] (k : κ) :
    alookup ([] : List (κ × α)) k = Option.none := rfl

@[simp] theorem alookup_cons {κ α : Type} [DecidableEq κ] (k' k : κ) (v : α) (rest : List (κ × α)) :
    alookup ((k', v) :: rest) k = if k' = k then some v else alookup rest k := rfl

@[simp] theorem ainsert_nil {κ α : Type} [DecidableEq κ] (k : κ) (v : α) :
    ainsert ([] : List (κ × α)) k v = [(k, v)] := rfl

@[simp] theorem ainsert_cons {κ α : Type} [DecidableEq κ] (k' k : κ) (v' v : α) (rest : List (κ × α)) :
    ainsert ((k', v') :: rest) k v =
      if k' = k then (k', v) :: rest else (k', v') :: ainsert rest k v := rfl

@[simp] theorem aerase_nil {κ α : Type} [DecidableEq κ] (k : κ) :
    aerase ([] : List (κ × α)) k = [] := rfl

@[simp] theorem aerase_cons {κ α : Type} [DecidableEq κ] (k' k : κ) (v' : α) (rest : List (κ × α)) :
    aerase ((k', v') :: rest) k =
      if k' = k then rest else (k', v') :: aerase rest k := rfl

theorem alookup_ainsert {κ α : Type} [DecidableEq κ] (l : List (κ × α)) (k : κ) (v : α) :
    alookup (ainsert l k v) k = some v := by
  induction l with
  | nil => simp [ainsert, alookup]
  | cons e rest ih =>
    obtain ⟨k', v'⟩ := e
    by_cases h : k' = k <;> simp [ainsert, alookup, h, ih]

theorem alookup_ainsert_ne {κ α : Type} [DecidableEq κ] (l : List (κ × α)) (k k₀ : κ) (v : α)
    (h : k ≠ k₀) : alookup (ainsert l k v) k₀ = alookup l k₀ := by
  induction l with
  | nil => simp [ainsert, alookup, h]
  | cons e rest ih =>
    obtain ⟨k', v'⟩ := e
    by_cases h' : k' = k
    · subst h'
      simp [ainsert, alookup, h]
    · simp [ainsert, alookup, h', ih]

theorem alookup_eq_none_of_not_mem_keys {κ α : Type} [DecidableEq κ] (l : List (κ × α)) (k : κ)
    (h : k ∉ l.map Prod.fst) : alookup l k = Option.none := by
  induction l with
  | nil => rfl
  | cons e rest ih =>
    obtain ⟨k', v'⟩ := e
    simp only [List.map_cons, List.mem_cons] at h
    push_neg at h
    have hne : k' ≠ k := fun hc => h.1 hc.symm
    simp [alookup, hne, ih h.2]

theorem alookup_aerase_of_nodup {κ α : Type} [DecidableEq κ] (l : List (κ × α)) (k : κ)
    (hnd : (l.map Prod.fst).Nodup) : alookup (aerase l k) k = Option.none := by
  induction l with
  | nil => simp [aerase, alookup]
  | cons e rest ih =>
    obtain ⟨k', v'⟩ := e
    simp only [List.map_cons, List.nodup_cons] at hnd
    by_cases h : k' = k
    · subst h
      simp only [aerase, if_pos rfl]
      exact alookup_eq_none_of_not_mem_keys rest k' hnd.1
    · simp only [aerase, if_neg h, alookup, if_neg h]
      exact ih hnd.2

theorem aerase_sublist {κ α : Type} [DecidableEq κ] (l : List (κ × α)) (k : κ) :
    (aerase l k).Sublist l := by
  induction l with
  | nil => simp [aerase]
  | cons e rest ih =>
    obtain ⟨k', v'⟩ := e
    by_cases h : k' = k
    · simp only [aerase, if_pos h]
      exact List.sublist_cons_self _ _
    · simp only [aerase, if_neg h]
      exact ih.cons₂ _

theorem alookup_eq_none_of_sublist {κ α : Type} [DecidableEq κ] {l l' : List (κ × α)} {k : κ}
    (hs : l'.Sublist l) (h : alookup l k = Option.none) : alookup l' k = Option.none := by
  induction hs with
  | slnil => exact h
  | cons e hs ih =>
    obtain ⟨k', v'⟩ := e
    simp only [alookup] at h
    by_cases hk : k' = k
    · simp [hk] at h
    · exact ih (by simpa [hk] using h)
  | cons₂ e hs ih =>
    obtain ⟨k', v'⟩ := e
    simp only [alookup] at h ⊢
    by_cases hk : k' = k
    · simp [hk] at h
    · simp only [if_neg hk] at h ⊢
      exact ih h

theorem nodup_keys_of_sublist {κ α : Type} {l l' : List (κ × α)}
    (hs : l'.Sublist l) (h : (l.map Prod.fst).Nodup) : (l'.map Prod.fst).Nodup :=
  (hs.map Prod.fst).nodup h

/-- The lazy key/value record of protocol/protocol.py (`class ProtocolFile`):
`store` is `self._store` (eager values), `lazy` is `self.lazy` (pending
loaders) and `evaluating` is the Counter `self.evaluating_`, kept as the
multiset of keys whose count is positive (pushed/popped on loader entry and
exit).  The per-instance lock is irrelevant in this single-threaded model. -/
structure ProtocolFile where
  store : List (String × Value)
  lazy : List (String × Loader)
  evaluating : List String

instance : Inhabited ProtocolFile := ⟨⟨[], [], []⟩⟩

namespace ProtocolFile

/-- Result of `__getitem__`: the value, the record state after the call, and
the log of keys whose pending loader was invoked (in invocation order).  The
log is the observable record of loader side effects, used to state the
"at-most-once evaluation" property. -/
abbrev GetResult := Value × ProtocolFile × List String

/-- Post-processing of `__getitem__` after the loader application: remove
the loader, store its output, pop the evaluating mark, then return the
(freshly) stored value; a loader error propagates unmodified. -/
def finishGet (key : String) : Except PError GetResult → Except PError GetResult
  | .error e => .error e
  | .ok (v, f2, log) =>
    let f3 : ProtocolFile :=
      { store := ainsert f2.store key v
        lazy := aerase f2.lazy key
        evaluating := f2.evaluating.erase key }
    match alookup f3.store key with
    | some v' => .ok (v', f3, key :: log)
    | Option.none => .error .keyNotFound

/-- Embedding of `ProtocolFile.__getitem__`.  If `key` is pending and not
currently being evaluated, its loader is applied to the record itself (which
may recursively read other keys), the key is migrated from `lazy` to `store`
via `finishGet`, and the freshly stored value is returned; otherwise the
eager store is consulted directly (raising `KeyError` when absent).  `fuel`
bounds the recursion through loaders. -/
def getItem : Nat → ProtocolFile → String → Except PError GetResult
  | 0, _, _ => .error .fuelOut
  | fuel + 1, f, key =>
    if (alookup f.lazy key).isSome && (f.evaluating.count key == 0) then
      -- mark the key as being evaluated, then apply the loader to the record
      let f1 : ProtocolFile := { f with evaluating := key :: f.evaluating }
      match alookup f.lazy key with
      | some (.const v) => finishGet key (.ok (v, f1, []))
      | some (.numeric v) => finishGet key (.ok (v, f1, []))
      | some (.getKey k') => finishGet key (getItem fuel f1 k')
      | some (.template _) => finishGet key (.error .unmodelledEffect)
      | some (.fileLoader _) => finishGet key (.error .unmodelledEffect)
      | Option.none => finishGet key (.error .keyNotFound)
    else
      match alookup f.store key with
      | some v => .ok (v, f, [])
      | Option.none => .error .keyNotFound

/-- Embedding of `ProtocolFile.__setitem__`: drop any pending loader for the
key, then store the value eagerly. -/
def setItem (f : ProtocolFile) (key : String) (v : Value) : ProtocolFile :=
  { f with
    lazy := if (alookup f.lazy key).isSome then aerase f.lazy key else f.lazy
    store := ainsert f.store key v }

/-- Embedding of `ProtocolFile.__delitem__`: drop any pending loader for the
key, then delete from the eager store — raising `KeyError` when the key has
no eager value, *after* the pending loader is already gone.  The state is
returned alongside the possible error because the Python method mutates the
record before raising. -/
def delItem (f : ProtocolFile) (key : String) : ProtocolFile × Option PError :=
  let f1 : ProtocolFile :=
    if (alookup f.lazy key).isSome then { f with lazy := aerase f.lazy key } else f
  match alookup f1.store key with
  | some _ => ({ f1 with store := aerase f1.store key }, Option.none)
  | Option.none => (f1, some .keyNotFound)

/-- Keys of `__iter__`: the eager keys in store order, then the pending keys
that have no eager value, in `lazy` order.  This is also the key snapshot
taken by `dict(file)` / `format(**file)` (CPython materialises `keys()`
before fetching the values). -/
def iterKeys (f : ProtocolFile) : List String :=
  f.store.map Prod.fst ++
    (f.lazy.map Prod.fst).filter (fun k => (alookup f.store k).isNone)

/-- Read each of the given keys in order with `__getitem__`, threading the
record state (loaders run and are cached as in Python). -/
def forceKeys (fuel : Nat) : List String → ProtocolFile → Except PError ProtocolFile
  | [], f => .ok f
  | k :: ks, f =>
    match getItem fuel f k with
    | .error e => .error e
    | .ok (_, f', _) => forceKeys fuel ks f'

/-- Embedding of `dict(file)` on a `ProtocolFile` (as performed by
`ProtocolFile.__init__` via `dict(precomputed)` and by `format(**item)`):
every key of the snapshot is fetched once, forcing all pending loaders.  The
resulting record has everything eager. -/
def materialize (fuel : Nat) (f : ProtocolFile) : Except PError ProtocolFile :=
  forceKeys fuel (iterKeys f) f

/-- Embedding of `Protocol.preprocess`: build
`ProtocolFile(current_file, lazy=preprocessors)`.  `__init__` copies
`dict(current_file)`, which forces every pending loader of the input record;
the new record carries the preprocessors as its pending map and a fresh
evaluating counter. -/
def preprocess (fuel : Nat) (preprocessors : List (String × Loader)) (f : ProtocolFile) :
    Except PError ProtocolFile :=
  match materialize fuel f with
  | .error e => .error e
  | .ok f' => .ok ⟨f'.store, preprocessors, []⟩

/-- Python `repr` of a value, used when a list/dict value is interpolated
into an identifier string (exercised only in degenerate configurations). -/
def pyRepr : Value → String
  | .str s => "'" ++ s ++ "'"
  | .int n => toString n
  | .none => "None"
  | .list vs => "[" ++ String.intercalate ", " (vs.attach.map (fun v => pyRepr v.1)) ++ "]"
  | .dict es => "\x7b" ++
      String.intercalate ", "
        (es.attach.map (fun e => "'" ++ e.1.1 ++ "': " ++ pyRepr e.1.2)) ++ "\x7d"
decreasing_by
  · have := v.2
    simp only [Value.list.sizeOf_spec]
    calc sizeOf v.1 < sizeOf vs := List.sizeOf_lt_of_mem this
    _ < 1 + sizeOf vs := by omega
  · have h1 := e.2
    have h2 : sizeOf e.1 ≤ sizeOf es := le_of_lt (List.sizeOf_lt_of_mem h1)
    have h3 : sizeOf e.1.2 < sizeOf e.1 := by
      obtain ⟨a, b⟩ := e.1
      simp only [Prod.mk.sizeOf_spec]
      omega
    simp only [Value.dict.sizeOf_spec]
    omega

/-- Result of interpolating a value with Python `str.format` and an empty
format spec (`"{uri}"`, `"{database}"`): strings interpolate verbatim,
integers in decimal, everything else via `str`/`repr`. -/
def formatValue : Value → String
  | .str s => s
  | .int n => toString n
  | .none => "None"
  | v => pyRepr v

/-- Embedding of `get_unique_identifier` (util.py).  The template is
`{database}/{uri}_{channel}`, where the `{database}/` prefix appears only
when the record has a `database` key and the `_{channel}` suffix only when it
has a `channel` key (formatted with `:d`, so a non-integer channel is a
`ValueError`).  Probing `database`/`channel` and the final `format(**item)`
all go through `__getitem__`, so the record is fully materialised as a side
effect; the returned record reflects that. -/
def getUniqueIdentifier (fuel : Nat) (f : ProtocolFile) :
    Except PError (String × ProtocolFile) :=
  let probe : ProtocolFile → String → Except PError (Option Value × ProtocolFile) :=
    fun g k =>
      match getItem fuel g k with
      | .ok (v, g', _) => .ok (some v, g')
      | .error .keyNotFound => .ok (Option.none, g)
      | .error e => .error e
  match probe f "database" with
  | .error e => .error e
  | .ok (db?, f1) =>
    match probe f1 "channel" with
    | .error e => .error e
    | .ok (ch?, f2) =>
      match materialize fuel f2 with
      | .error e => .error e
      | .ok f3 =>
        match alookup f3.store "uri" with
        | Option.none => .error .keyNotFound
        | some uriVal =>
          let pfx : String :=
            match db? with
            | some d => formatValue d ++ "/"
            | Option.none => ""
          match ch? with
          | some (.int n) => .ok (pfx ++ formatValue uriVal ++ "_" ++ toString n, f3)
          | some _ => .error .valueError
          | Option.none => .ok (pfx ++ formatValue uriVal, f3)

/-- Broadcast columns for `ProtocolFile.files`: walk the eager store (the
`abs(self)` snapshot), skipping `uri`; a list value must have the same length
as the `uri` list (else `ValueError`), a non-list value is broadcast
(`itertools.repeat`). -/
def expandEntries (n : Nat) : List (String × Value) →
    Except PError (List (String × (Value ⊕ List Value)))
  | [] => .ok []
  | (k, v) :: rest =>
    if k = "uri" then expandEntries n rest
    else
      match v with
      | .list l =>
        if l.length = n then
          match expandEntries n rest with
          | .error e => .error e
          | .ok cols => .ok ((k, Sum.inr l) :: cols)
        else .error .valueError
      | _ =>
        match expandEntries n rest with
        | .error e => .error e
        | .ok cols => .ok ((k, Sum.inl v) :: cols)

/-- Row selection for the zip in `ProtocolFile.files`: a broadcast scalar is
repeated, a list column contributes its `i`-th element. -/
def selectCol (i : Nat) : Value ⊕ List Value → Value
  | .inl v => v
  | .inr l => l.getD i Value.none

/-- Embedding of `ProtocolFile.files` ("expand").  `self["uri"]` is read via
`__getitem__`; when it is not a list the (possibly mutated) record itself is
the only yield; when it is a list of length `n`, `n` fresh records are built,
each seeded with the `i`-th uri, the broadcast eager entries and the same
pending loaders, with a fresh evaluating counter. -/
def expandFile (fuel : Nat) (f : ProtocolFile) : Except PError (List ProtocolFile) :=
  match getItem fuel f "uri" with
  | .error e => .error e
  | .ok (uris, f1, _) =>
    match uris with
    | .list us =>
      match expandEntries us.length f1.store with
      | .error e => .error e
      | .ok cols =>
        .ok ((List.range us.length).map (fun i =>
          ⟨("uri", us.getD i Value.none) :: cols.map (fun c => (c.1, selectCol i c.2)),
            f1.lazy, []⟩))
    | _ => .ok [f1]

end ProtocolFile

/-! `Protocol.files` (protocol/protocol.py): the unified iteration over every
subset/enrolment/trial method.  A protocol instance is abstracted as the list
of record sequences produced by its available methods, in the fixed priority
order of the source (`development`, `test`, `train`, then the `_enrolment`
and `_trial` variants); methods that are missing, raise `NotImplementedError`
or yield nothing contribute the empty sequence.  For each record: records
without a `uri` key are skipped, the record is expanded with
`ProtocolFile.files`, each resulting record is identified with
`get_unique_identifier` (which materialises it) and yielded unless its
identifier was already seen. -/

/-- Annotate each expanded record with its unique identifier, in order,
threading the materialisation performed by `get_unique_identifier`. -/
def uidAnnotate (fuel : Nat) : List ProtocolFile →
    Except PError (List (String × ProtocolFile))
  | [] => .ok []
  | s :: ss =>
    match ProtocolFile.getUniqueIdentifier fuel s with
    | .error e => .error e
    | .ok (u, s') =>
      match uidAnnotate fuel ss with
      | .error e => .error e
      | .ok rest => .ok ((u, s') :: rest)

/-- The undeduplicated stream of `Protocol.files`: every expanded record of
every method, each with its identity key, in yield order. -/
def filesAllGo (fuel : Nat) : List ProtocolFile →
    Except PError (List (String × ProtocolFile))
  | [] => .ok []
  | r :: rs =>
    match ProtocolFile.getItem fuel r "uri" with
    | .error .keyNotFound => filesAllGo fuel rs
    | .error e => .error e
    | .ok (_, r1, _) =>
      match ProtocolFile.expandFile fuel r1 with
      | .error e => .error e
      | .ok subs =>
        match uidAnnotate fuel subs with
        | .error e => .error e
        | .ok anns =>
          match filesAllGo fuel rs with
          | .error e => .error e
          | .ok rest => .ok (anns ++ rest)

/-- Deduplication step over the expanded records of one protocol record: as
in the source, the identifier of *every* record is computed (so the record is
materialised whether or not it is yielded), but a record whose identifier is
in `yieldedUris` is dropped.  Returns the yielded records and the updated
set. -/
def dedupSubs (fuel : Nat) : List ProtocolFile → List String →
    Except PError (List ProtocolFile × List String)
  | [], seen => .ok ([], seen)
  | s :: ss, seen =>
    match ProtocolFile.getUniqueIdentifier fuel s with
    | .error e => .error e
    | .ok (u, s') =>
      if u ∈ seen then dedupSubs fuel ss seen
      else
        match dedupSubs fuel ss (u :: seen) with
        | .error e => .error e
        | .ok (out, seen') => .ok (s' :: out, seen')

/-- Embedding of the body of `Protocol.files`: iterate over the records of
all methods (given as one concatenated list, `seen` being the
`yielded_uris` set). -/
def filesDedupGo (fuel : Nat) : List ProtocolFile → List String →
    Except PError (List ProtocolFile)
  | [], _ => .ok []
  | r :: rs, seen =>
    match ProtocolFile.getItem fuel r "uri" with
    | .error .keyNotFound => filesDedupGo fuel rs seen
    | .error e => .error e
    | .ok (_, r1, _) =>
      match ProtocolFile.expandFile fuel r1 with
      | .error e => .error e
      | .ok subs =>
        match dedupSubs fuel subs seen with
        | .error e => .error e
        | .ok (out, seen') =>
          match filesDedupGo fuel rs seen' with
          | .error e => .error e
          | .ok rest => .ok (out ++ rest)

/-- Embedding of `Protocol.files`, taking the record sequences of the
protocol's methods in the source's fixed priority order. -/
def protocolFiles (fuel : Nat) (methods : List (List ProtocolFile)) :
    Except PError (List ProtocolFile) :=
  filesDedupGo fuel methods.flatten []

/-- Specification-side first-occurrence filter on an identifier-annotated
stream: keep an element exactly when its key has not occurred before (and is
not in the initial `seen` set). -/
def firstOccurP : List (String × ProtocolFile) → List String → List (String × ProtocolFile)
  | [], _ => []
  | (u, s) :: rest, seen =>
    if u ∈ seen then firstOccurP rest seen
    else (u, s) :: firstOccurP rest (u :: seen)

/-! Embedding of `load_lst` (src/src loader.py).  A file's content is a list
of characters; `readlines` splits after each newline, keeping the newline and
dropping nothing else; each line is then `strip`ped.  No entry is filtered
out. -/

/-- Characters stripped by Python `str.strip()`. -/
def isPySpace (c : Char) : Bool :=
  c = ' ' || c = '\t' || c = '\n' || c = '\r' || c = '\x0b' || c = '\x0c'

/-- Helper for `readlines`: `acc` holds the current (reversed) partial line. -/
def readlinesAux : List Char → List Char → List (List Char)
  | [], [] => []
  | [], acc => [acc.reverse]
  | c :: rest, acc =>
    if c = '\n' then (acc.reverse ++ ['\n']) :: readlinesAux rest []
    else readlinesAux rest (c :: acc)

/-- Python `fp.readlines()` on the given file content. -/
def readlinesChars (content : List Char) : List (List Char) :=
  readlinesAux content []

/-- Python `str.strip()`: remove leading and trailing whitespace. -/
def pyStrip (l : List Char) : List Char :=
  ((l.dropWhile isPySpace).reverse.dropWhile isPySpace).reverse

/-- Embedding of `load_lst`: one stripped entry per line of the file. -/
def loadLst (content : List Char) : List String :=
  (readlinesChars content).map (fun l => String.mk (pyStrip l))

/-- Independent line count of a file: the number of newline characters, plus
one when a final unterminated line remains. -/
def numLines (content : List Char) : Nat :=
  content.count '\n' +
    (if content ≠ [] ∧ content.getLast? ≠ some '\n' then 1 else 0)

/-! Embedding of src/src custom.py: loader gathering, subset iteration and
protocol-class creation.  The filesystem is abstracted as a partial map from
paths (as written in the configuration, resolution against the YAML
directory being an identity here) to file contents.  The suffix-indexed
`LOADERS` table is populated from package entry points at import time and is
treated as accepting every suffix; evaluating such a loader is outside the
model (`Loader.fileLoader`). -/

/-- A filesystem: path to file content. -/
abbrev FileSystem := String → Option (List Char)

/-- Does a string contain an un-escaped `{...}` placeholder?  (Detection
performed with `string.Formatter().parse` in the source; `"{{"` is the escape
for a literal brace.  Malformed format strings, which make Python raise, are
not modelled.) -/
def hasPlaceholderAux : List Char → Bool
  | [] => false
  | '{' :: '{' :: rest => hasPlaceholderAux rest
  | '{' :: _ => true
  | _ :: rest => hasPlaceholderAux rest

/-- Placeholder detection on a string value. -/
def hasPlaceholder (s : String) : Bool := hasPlaceholderAux s.data

/-- Embedding of `gather_loaders`: every entry other than `uri`/`trial`
becomes a pending loader: numeric literals a `NumericValue`, strings with a
placeholder a `Template` (with the deprecated leading underscore stripped),
plain strings a file-format loader instantiated on the resolved path — which
must exist at iteration time (`FileNotFoundError` otherwise).  Non-string,
non-numeric entry values make Python's format-string parsing raise. -/
def gatherLoaders (fs : FileSystem) : List (String × Value) →
    Except PError (List (String × Loader))
  | [] => .ok []
  | (k, v) :: rest =>
    if k = "uri" ∨ k = "trial" then gatherLoaders fs rest
    else
      match v with
      | .int n =>
        match gatherLoaders fs rest with
        | .error e => .error e
        | .ok l => .ok ((k, .numeric (.int n)) :: l)
      | .str s =>
        if hasPlaceholder s then
          let s' := if s.startsWith "_" then s.drop 1 else s
          match gatherLoaders fs rest with
          | .error e => .error e
          | .ok l => .ok ((k, .template s') :: l)
        else
          match fs s with
          | Option.none => .error .fileNotFound
          | some _ =>
            match gatherLoaders fs rest with
            | .error e => .error e
            | .ok l => .ok ((k, .fileLoader s) :: l)
      | _ => .error .valueError

/-- Embedding of `subset_iter` (custom.py): resolve the mandatory `uri`
entry (the deprecated `uris` spelling is accepted with a warning; neither
present is a `ValueError`), read the list file, gather the remaining entries
into pending loaders, and yield one fresh `ProtocolFile` per listed uri,
seeded with `{"uri": uri, "database": database, "subset": subset,
**metadata}` and the shared loader map. -/
def subsetIter (fs : FileSystem) (database task protocol subset : String)
    (entries : List (String × Value)) (metadata : List (String × Value)) :
    Except PError (List ProtocolFile) :=
  let uriEntry : Except PError Value :=
    match alookup entries "uri" with
    | some v => .ok v
    | Option.none =>
      match alookup entries "uris" with
      | some v => .ok v
      | Option.none => .error .valueError
  match uriEntry with
  | .error e => .error e
  | .ok uriVal =>
    match uriVal with
    | .str uriPath =>
      match fs uriPath with
      | Option.none => .error .fileNotFound
      | some content =>
        let uris := loadLst content
        match gatherLoaders fs entries with
        | .error e => .error e
        | .ok lazyLoader =>
          .ok (uris.map (fun u =>
            ⟨metadata.foldl (fun acc e => ainsert acc e.1 e.2)
                [("uri", .str u), ("database", .str database), ("subset", .str subset)],
              lazyLoader, []⟩))
    | _ => .error .valueError

/-- Base behaviours available from the protocol package, looked up by
`getattr(protocol_module, task + "Protocol")` in `create_protocol`.
Modelled from the spec: the package's public namespace (its `__init__` is
not among the sources) exposes the fixed enumeration {Protocol, Collection,
SpeakerDiarization, SpeakerVerification}; unknown tasks resolve to nothing. -/
inductive BaseClass where
  | protocol
  | collection
  | segmentation
  | speakerDiarization
  | speakerVerification
deriving Repr, DecidableEq

/-- Lookup of the base class for a task name (unknown task → `none`, logged
and skipped by the caller). -/
def baseClassOf : String → Option BaseClass
  | "Protocol" => some .protocol
  | "Collection" => some .collection
  | "SpeakerDiarization" => some .speakerDiarization
  | "SpeakerVerification" => some .speakerVerification
  | _ => Option.none

/-- Class-hierarchy test `issubclass(c, SegmentationProtocol)`.
`SpeakerVerificationProtocol` derives from `SpeakerDiarizationProtocol`
(speaker_verification.py); that `SpeakerDiarizationProtocol` derives from
`SegmentationProtocol` is modelled from the spec and custom.py's import of
`.protocol.segmentation` (the segmentation module itself is not among the
sources).  `CollectionProtocol` derives directly from `Protocol`
(collection.py), so it is no segmentation protocol. -/
def BaseClass.isSegmentationSubclass : BaseClass → Bool
  | .segmentation => true
  | .speakerDiarization => true
  | .speakerVerification => true
  | _ => false

/-- Class-hierarchy test `issubclass(c, SpeakerDiarizationProtocol)`. -/
def BaseClass.isSpeakerDiarizationSubclass : BaseClass → Bool
  | .speakerDiarization => true
  | .speakerVerification => true
  | _ => false

/-- Subset names accepted by `create_protocol`'s method loop. -/
def allowedSubsets : List String :=
  ["files", "train", "development", "test",
   "train_trial", "development_trial", "test_trial"]

/-- Result of `create_protocol`: the synthesized protocol class, abstracted
as its base behaviour, the protocol-level metadata captured once (attached
to every record later yielded), the subset entries wired into
`subset_iter`/`meta_subset_iter` methods, and the warning flags. -/
structure CreatedProtocol where
  database : String
  task : String
  protocol : String
  base : BaseClass
  metadata : List (String × Value)
  scopeWarning : Bool
  subsets : List (String × Value)
  skippedSubsets : List String

/-- Embedding of `create_protocol` (custom.py).  Unknown tasks yield `none`.
Collections are normalised to a single synthetic `files` subset holding the
whole entry dict.  For segmentation protocols a declared `classes` entry is
popped into the metadata; for speaker-diarization protocols the `scope`
entry is popped into the metadata, defaulting to `"file"` with a warning
when undeclared and the database is not the meta-database `X` (undeclared on
`X` stores Python `None`).  Remaining entries with supported subset names
become subset methods; unsupported names are warned about and skipped. -/
def createProtocol (database task protocol : String)
    (protocolEntries : List (String × Value)) : Option CreatedProtocol :=
  match baseClassOf task with
  | Option.none => Option.none
  | some base =>
    let entries1 :=
      if task = "Collection" then [("files", Value.dict protocolEntries)]
      else protocolEntries
    let classesMd : List (String × Value) :=
      if base.isSegmentationSubclass then
        match alookup entries1 "classes" with
        | some v => [("classes", v)]
        | Option.none => []
      else []
    let entries2 :=
      if base.isSegmentationSubclass ∧ (alookup entries1 "classes").isSome then
        aerase entries1 "classes"
      else entries1
    let scopeStep : List (String × Value) × Bool × List (String × Value) :=
      if base.isSpeakerDiarizationSubclass then
        match alookup entries2 "scope" with
        | some v => ([("scope", v)], false, aerase entries2 "scope")
        | Option.none =>
          if database ≠ "X" then ([("scope", .str "file")], true, entries2)
          else ([("scope", Value.none)], false, entries2)
      else ([], false, entries2)
    let scopeMd := scopeStep.1
    let warned := scopeStep.2.1
    let entries3 := scopeStep.2.2
    some
      { database := database
        task := task
        protocol := protocol
        base := base
        metadata := classesMd ++ scopeMd
        scopeWarning := warned
        subsets := entries3.filter (fun e => e.1 ∈ allowedSubsets)
        skippedSubsets := (entries3.map Prod.fst).filter (fun s => s ∉ allowedSubsets) }

/-- Records yielded by one subset method of a created (non-meta) protocol:
the registered `subset_iter` partial application, with the captured
metadata.  A subset that was not declared has no method.  (For the
meta-database `X` the registered method is `meta_subset_iter` instead, see
`metaSubsetIter`.) -/
def createdSubsetRecords (fs : FileSystem) (cp : CreatedProtocol) (subset : String) :
    Except PError (List ProtocolFile) :=
  match alookup cp.subsets subset with
  | Option.none => .error .notImplemented
  | some (.dict sentries) =>
    subsetIter fs cp.database cp.task cp.protocol subset sentries cp.metadata
  | some _ => .error .valueError

/-! Meta-protocols.  A sub-protocol reached through the registry is
abstracted as the association of its subset names to the record sequences of
its `{subset}_iter` methods; a missing method raises `NotImplementedError`
when iterated. -/

/-- Record sequences of the given subsets of one resolved protocol, in
declaration order (`for subset in subsets: yield from {subset}_iter()`). -/
def subsetsConcat (proto : List (String × List ProtocolFile)) :
    List String → Except PError (List ProtocolFile)
  | [] => .ok []
  | s :: ss =>
    match alookup proto s with
    | Option.none => .error .notImplemented
    | some files =>
      match subsetsConcat proto ss with
      | .error e => .error e
      | .ok rest => .ok (files ++ rest)

/-- Embedding of `meta_subset_iter` (custom.py): for each referenced
protocol, in declaration order, resolve it through the registry and yield
the full record sequence of each listed subset, in order — plain
concatenation, no deduplication. -/
def metaSubsetIter (resolve : String → Option (List (String × List ProtocolFile)))
    (subsetEntries : List (String × List String)) : Except PError (List ProtocolFile) :=
  match subsetEntries with
  | [] => .ok []
  | (pname, subsets) :: rest =>
    match resolve pname with
    | Option.none => .error .keyNotFound
    | some proto =>
      match subsetsConcat proto subsets with
      | .error e => .error e
      | .ok files =>
        match metaSubsetIter resolve rest with
        | .error e => .error e
        | .ok restFiles => .ok (files ++ restFiles)

/-- Map `Protocol.preprocess` over a record sequence, as the subset entry
points do for every yielded record. -/
def preprocessAll (fuel : Nat) (preprocessors : List (String × Loader)) :
    List ProtocolFile → Except PError (List ProtocolFile)
  | [] => .ok []
  | f :: fsRest =>
    match ProtocolFile.preprocess fuel preprocessors f with
    | .error e => .error e
    | .ok f' =>
      match preprocessAll fuel preprocessors fsRest with
      | .error e => .error e
      | .ok rest => .ok (f' :: rest)

/-- Modelled from the spec: `SpeakerDiarizationProtocol.train` /
`development` / `test` (the subset entry points of the version matching
src/src custom.py are not among the sources; spec §4.3: each delegates to
the corresponding `{subset}_iter` method and applies the preprocessing
pipeline to every yielded record).  The protocol's own iter methods are
given as an association of subset names to record sequences. -/
def sdSubsetMethod (fuel : Nat) (preprocessors : List (String × Loader))
    (proto : List (String × List ProtocolFile)) (subset : String) :
    Except PError (List ProtocolFile) :=
  match alookup proto subset with
  | Option.none => .error .notImplemented
  | some files => preprocessAll fuel preprocessors files

/-- The `train()` entry point of a meta-protocol whose `train_iter` is
`meta_subset_iter` over the given entries: delegation plus preprocessing of
every yielded record (spec §4.3, with empty preprocessors as instantiated by
`Registry.get_protocol`). -/
def metaTrain (fuel : Nat) (resolve : String → Option (List (String × List ProtocolFile)))
    (subsetEntries : List (String × List String)) : Except PError (List ProtocolFile) :=
  match metaSubsetIter resolve subsetEntries with
  | .error e => .error e
  | .ok files => preprocessAll fuel [] files

/-! Embedding of src/src registry.py.  A protocol definition (the class
produced by `create_protocol` from one source's entries) is abstracted as an
opaque token (a `String`); `Registry.databases` maps a database name to its
`(task, protocol) ↦ definition` dict, `Registry.sources` and
`Registry.configs` mirror the fields of the same names.  Requirement
recursion and YAML parsing happen before the behaviour the claims are about
and are not modelled: a configuration source is given directly as its parsed
`Protocols`/`Databases` sections plus its path. -/

/-- A `(task, protocol)` pair, the key of a database's protocol dict. -/
abbrev ProtoKey := String × String

/-- An opaque protocol definition (stands for the class synthesized by
`create_protocol` from one source's entries for that protocol). -/
abbrev ProtoDef := String

/-- Conflict policy `LoadingMode` of registry.py. -/
inductive LoadingMode where
  | override
  | keep
  | error
deriving Repr, DecidableEq

/-- The `RuntimeError` raised by `_merge_protocols_inplace` in ERROR mode,
naming the fully-qualified protocol and the offending source. -/
inductive RegistryError where
  | protocolExists (database task protocol : String) (databaseYml : String)
deriving Repr, DecidableEq

/-- One parsed YAML configuration source: the `Protocols` section (per
database, the flattened `(task, protocol) ↦ definition` dict produced by
`create_protocol` over its entries) and the `Databases` section (per
database, its path templates), plus the file's path. -/
structure Config where
  protocols : List (String × List (ProtoKey × ProtoDef))
  databases : List (String × List String)
  path : String

/-- Registry state (`Registry.__init__`). -/
structure Registry where
  configs : List (String × Config)
  sources : List (String × List String)
  databases : List (String × List (ProtoKey × ProtoDef))

/-- The empty registry. -/
def Registry.empty : Registry := ⟨[], [], []⟩

/-- Embedding of `_merge_protocols_inplace`: walk the previously defined
protocols; a redefined key raises in ERROR mode, is left as the new
definition in OVERRIDE mode (with a warning) or overwritten in place with
the old definition in KEEP mode (with a warning); a key only previously
defined is appended.  Returns the merged dict and the warned fully-qualified
protocol names, in warning order. -/
def mergeProtocolsInplace (mode : LoadingMode) (dbName databaseYml : String) :
    List (ProtoKey × ProtoDef) → List (ProtoKey × ProtoDef) →
    Except RegistryError (List (ProtoKey × ProtoDef) × List String)
  | newP, [] => .ok (newP, [])
  | newP, (pid, oldDef) :: oldRest =>
    if (alookup newP pid).isSome then
      let realname := dbName ++ "." ++ pid.1 ++ "." ++ pid.2
      match mode with
      | .error => .error (.protocolExists dbName pid.1 pid.2 databaseYml)
      | .override =>
        match mergeProtocolsInplace mode dbName databaseYml newP oldRest with
        | .error e => .error e
        | .ok (merged, warns) => .ok (merged, realname :: warns)
      | .keep =>
        match mergeProtocolsInplace mode dbName databaseYml (ainsert newP pid oldDef) oldRest with
        | .error e => .error e
        | .ok (merged, warns) => .ok (merged, realname :: warns)
    else
      mergeProtocolsInplace mode dbName databaseYml (ainsert newP pid oldDef) oldRest

/-- Embedding of `Registry._load_protocols` for one database of one source:
build the new protocol dict (given here already flattened), merge with the
previously registered dict when the database exists, and (re)register the
database under the merged dict. -/
def loadProtocols (mode : LoadingMode) (dbName : String)
    (defs : List (ProtoKey × ProtoDef)) (databaseYml : String) (reg : Registry) :
    Except RegistryError (Registry × List String) :=
  match alookup reg.databases dbName with
  | Option.none => .ok ({ reg with databases := ainsert reg.databases dbName defs }, [])
  | some oldProtocols =>
    match mergeProtocolsInplace mode dbName databaseYml defs oldProtocols with
    | .error e => .error e
    | .ok (merged, warns) =>
      .ok ({ reg with databases := ainsert reg.databases dbName merged }, warns)

/-- The per-database loop of `_load_database_helper` over the `Protocols`
section.  On an error the loop stops and the registry mutated so far is
returned (the Python exception propagates out of a mutating loop). -/
def loadProtocolsLoop (mode : LoadingMode) (databaseYml : String) :
    List (String × List (ProtoKey × ProtoDef)) → Registry →
    Registry × List String × Option RegistryError
  | [], reg => (reg, [], Option.none)
  | (dbName, defs) :: rest, reg =>
    match loadProtocols mode dbName defs databaseYml reg with
    | .error e => (reg, [], some e)
    | .ok (reg', warns) =>
      match loadProtocolsLoop mode databaseYml rest reg' with
      | (reg'', warns', err) => (reg'', warns ++ warns', err)

/-- Embedding of `_load_database_helper` for one source (requirements are
loaded before this and not modelled): process the `Protocols` section with
the meta-database `X` moved last, then — only if no error was raised —
register the `Databases` section into `sources` and record the
configuration in `configs`. -/
def loadDatabaseHelper (mode : LoadingMode) (cfg : Config) (reg : Registry) :
    Registry × List String × Option RegistryError :=
  let ordered :=
    cfg.protocols.filter (fun e => e.1 ≠ "X") ++ cfg.protocols.filter (fun e => e.1 = "X")
  match loadProtocolsLoop mode cfg.path ordered reg with
  | (reg', warns, some e) => (reg', warns, some e)
  | (reg', warns, Option.none) =>
    let reg2 :=
      { reg' with
        sources :=
          cfg.databases.foldl
            (fun acc (e : String × List String) => ainsert acc e.1 e.2) reg'.sources }
    let reg3 := { reg2 with configs := ainsert reg2.configs cfg.path cfg }
    (reg3, warns, Option.none)

/-- Embedding of `_reload_meta_protocols`: drop the meta-database and replay
the `X` sections of every loaded configuration, in load order, in OVERRIDE
mode.  (A merge in OVERRIDE mode never raises; the error branch below is
unreachable and keeps the registry unchanged.) -/
def reloadMetaProtocols (reg : Registry) : Registry :=
  let reg1 := { reg with databases := aerase reg.databases "X" }
  reg.configs.foldl
    (fun acc (e : String × Config) =>
      match alookup e.2.protocols "X" with
      | Option.none => acc
      | some xdefs =>
        match loadProtocols .override "X" xdefs e.1 acc with
        | .ok (acc', _) => acc'
        | .error _ => acc)
    reg1

/-- Embedding of `Registry.load_database` on an already parsed source: run
the helper, and reload meta-protocols only when no error propagated. -/
def loadDatabase (mode : LoadingMode) (cfg : Config) (reg : Registry) :
    Registry × List String × Option RegistryError :=
  match loadDatabaseHelper mode cfg reg with
  | (reg', warns, some e) => (reg', warns, some e)
  | (reg', warns, Option.none) => (reloadMetaProtocols reg', warns, Option.none)

/-- Resolution of a `(database, task, protocol)` triple to its registered
definition, as performed by `Registry.get_protocol` /
`Database.get_protocol` (instantiation and name stamping aside). -/
def getProtocolDef (reg : Registry) (database task protocol : String) : Option ProtoDef :=
  match alookup reg.databases database with
  | Option.none => Option.none
  | some protocols => alookup protocols (task, protocol)

/-! Structural lemmas about `ProtocolFile.getItem`. -/

namespace ProtocolFile

/-- The loader application step of `__getitem__` (taken when the key is
pending and not being evaluated): apply the registered loader to the record
with the key marked as evaluating. -/
def applyLoader (fuel : Nat) (f : ProtocolFile) (key : String) : Except PError GetResult :=
  let f1 : ProtocolFile := { f with evaluating := key :: f.evaluating }
  match alookup f.lazy key with
  | some (.const v) => .ok (v, f1, [])
  | some (.numeric v) => .ok (v, f1, [])
  | some (.getKey k') => getItem fuel f1 k'
  | some (.template _) => .error .unmodelledEffect
  | some (.fileLoader _) => .error .unmodelledEffect
  | Option.none => .error .keyNotFound

theorem getItem_succ (fuel : Nat) (f : ProtocolFile) (key : String) :
    getItem (fuel + 1) f key =
      if (alookup f.lazy key).isSome && (f.evaluating.count key == 0) then
        finishGet key (applyLoader fuel f key)
      else
        match alookup f.store key with
        | some v => .ok (v, f, [])
        | Option.none => .error .keyNotFound := by
  unfold getItem applyLoader
  cases halz : alookup f.lazy key with
  | none => simp [halz]
  | some ld => cases ld <;> simp [halz]

@[simp] theorem finishGet_error (key : String) (e : PError) :
    finishGet key (.error e) = .error e := rfl

theorem finishGet_ok (key : String) (v : Value) (f₂ : ProtocolFile) (log : List String) :
    finishGet key (.ok (v, f₂, log)) =
      .ok (v, ⟨ainsert f₂.store key v, aerase f₂.lazy key, f₂.evaluating.erase key⟩,
        key :: log) := by
  simp [finishGet, alookup_ainsert]

theorem finishGet_ok_inv {key : String} {r : Except PError GetResult}
    {v : Value} {f' : ProtocolFile} {log : List String}
    (h : finishGet key r = .ok (v, f', log)) :
    ∃ f₂ log₂, r = .ok (v, f₂, log₂) ∧
      f' = ⟨ainsert f₂.store key v, aerase f₂.lazy key, f₂.evaluating.erase key⟩ ∧
      log = key :: log₂ := by
  cases r with
  | error e => simp at h
  | ok t =>
    obtain ⟨v₂, f₂, log₂⟩ := t
    rw [finishGet_ok] at h
    simp only [Except.ok.injEq, Prod.mk.injEq] at h
    obtain ⟨hv, hf, hlog⟩ := h
    subst hv
    exact ⟨f₂, log₂, rfl, hf.symm, hlog.symm⟩

/-- Inversion of a successful `applyLoader`: either a value-returning loader
answered directly, or a `getKey` loader delegated to `getItem` with smaller
fuel. -/
theorem applyLoader_ok_inv {fuel : Nat} {f f₂ : ProtocolFile} {key : String}
    {v : Value} {log : List String}
    (h : applyLoader fuel f key = .ok (v, f₂, log)) :
    (f₂ = { f with evaluating := key :: f.evaluating } ∧ log = []) ∨
    (∃ k', alookup f.lazy key = some (.getKey k') ∧
      getItem fuel { f with evaluating := key :: f.evaluating } k' = .ok (v, f₂, log)) := by
  unfold applyLoader at h
  split at h
  · simp only [Except.ok.injEq, Prod.mk.injEq] at h
    exact Or.inl ⟨h.2.1.symm, h.2.2.symm⟩
  · simp only [Except.ok.injEq, Prod.mk.injEq] at h
    exact Or.inl ⟨h.2.1.symm, h.2.2.symm⟩
  · rename_i k' heq
    exact Or.inr ⟨k', heq, h⟩
  · simp at h
  · simp at h
  · simp at h

theorem getItem_store_lookup {fuel : Nat} {f f' : ProtocolFile} {k : String}
    {v : Value} {log : List String}
    (hok : getItem fuel f k = .ok (v, f', log)) : alookup f'.store k = some v := by
  match fuel with
  | 0 => simp [getItem] at hok
  | fuel + 1 =>
    rw [getItem_succ] at hok
    split at hok
    · obtain ⟨f₂, log₂, happ, hf, hlog⟩ := finishGet_ok_inv hok
      subst hf
      exact alookup_ainsert _ _ _
    · split at hok
      · rename_i v₀ hlook
        simp only [Except.ok.injEq, Prod.mk.injEq] at hok
        obtain ⟨hv, hf, hlog⟩ := hok
        subst hv; subst hf
        exact hlook
      · simp at hok

theorem getItem_lazy_sublist {fuel : Nat} {f f' : ProtocolFile} {k : String}
    {v : Value} {log : List String}
    (hok : getItem fuel f k = .ok (v, f', log)) : f'.lazy.Sublist f.lazy := by
  induction fuel generalizing f f' k v log with
  | zero => simp [getItem] at hok
  | succ n ih =>
    rw [getItem_succ] at hok
    split at hok
    · obtain ⟨f₂, log₂, happ, hf, hlog⟩ := finishGet_ok_inv hok
      subst hf
      have hsub2 : f₂.lazy.Sublist f.lazy := by
        rcases applyLoader_ok_inv happ with ⟨hf₂, _⟩ | ⟨k', _, hrec⟩
        · subst hf₂
          exact List.Sublist.refl _
        · have h2 := ih hrec
          exact h2
      exact (aerase_sublist f₂.lazy k).trans hsub2
    · split at hok
      · simp only [Except.ok.injEq, Prod.mk.injEq] at hok
        obtain ⟨hv, hf, hlog⟩ := hok
        subst hf
        exact List.Sublist.refl _
      · simp at hok

theorem getItem_evaluating_eq {fuel : Nat} {f f' : ProtocolFile} {k : String}
    {v : Value} {log : List String}
    (hok : getItem fuel f k = .ok (v, f', log)) : f'.evaluating = f.evaluating := by
  induction fuel generalizing f f' k v log with
  | zero => simp [getItem] at hok
  | succ n ih =>
    rw [getItem_succ] at hok
    split at hok
    · obtain ⟨f₂, log₂, happ, hf, hlog⟩ := finishGet_ok_inv hok
      subst hf
      have heval2 : f₂.evaluating = k :: f.evaluating := by
        rcases applyLoader_ok_inv happ with ⟨hf₂, _⟩ | ⟨k', _, hrec⟩
        · subst hf₂
          rfl
        · exact ih hrec
      show f₂.evaluating.erase k = f.evaluating
      rw [heval2, List.erase_cons_head]
    · split at hok
      · simp only [Except.ok.injEq, Prod.mk.injEq] at hok
        obtain ⟨hv, hf, hlog⟩ := hok
        subst hf
        rfl
      · simp at hok

theorem getItem_guard_log {fuel : Nat} {f f' : ProtocolFile} {key k₀ : String}
    {v : Value} {log : List String}
    (hguard : 0 < f.evaluating.count k₀)
    (hok : getItem fuel f key = .ok (v, f', log)) : log.count k₀ = 0 := by
  induction fuel generalizing f f' key v log with
  | zero => simp [getItem] at hok
  | succ n ih =>
    rw [getItem_succ] at hok
    split at hok
    · rename_i hcond
      simp only [Bool.and_eq_true, beq_iff_eq] at hcond
      have hne : key ≠ k₀ := by
        intro hc
        subst hc
        omega
      obtain ⟨f₂, log₂, happ, hf, hlog⟩ := finishGet_ok_inv hok
      subst hlog
      have hinner : log₂.count k₀ = 0 := by
        rcases applyLoader_ok_inv happ with ⟨_, hlog₂⟩ | ⟨k', _, hrec⟩
        · subst hlog₂
          rfl
        · refine ih ?_ hrec
          simp only [List.count_cons]
          omega
      simp [List.count_cons, hinner, hne]
    · split at hok
      · simp only [Except.ok.injEq, Prod.mk.injEq] at hok
        obtain ⟨hv, hf, hlog⟩ := hok
        subst hlog
        rfl
      · simp at hok

theorem getItem_count_le_one {fuel : Nat} {f f' : ProtocolFile} {k : String}
    {v : Value} {log : List String}
    (hok : getItem fuel f k = .ok (v, f', log)) : log.count k ≤ 1 := by
  match fuel with
  | 0 => simp [getItem] at hok
  | fuel + 1 =>
    rw [getItem_succ] at hok
    split at hok
    · obtain ⟨f₂, log₂, happ, hf, hlog⟩ := finishGet_ok_inv hok
      subst hlog
      have hinner : log₂.count k = 0 := by
        rcases applyLoader_ok_inv happ with ⟨_, hlog₂⟩ | ⟨k', _, hrec⟩
        · subst hlog₂
          rfl
        · refine getItem_guard_log ?_ hrec
          simp [List.count_cons]
      simp [List.count_cons, hinner]
    · split at hok
      · simp only [Except.ok.injEq, Prod.mk.injEq] at hok
        obtain ⟨hv, hf, hlog⟩ := hok
        subst hlog
        simp
      · simp at hok

theorem getItem_lazy_removed {fuel : Nat} {f f' : ProtocolFile} {k : String}
    {v : Value} {log : List String}
    (hnd : (f.lazy.map Prod.fst).Nodup)
    (hpending : (alookup f.lazy k).isSome)
    (heval : f.evaluating.count k = 0)
    (hok : getItem fuel f k = .ok (v, f', log)) : alookup f'.lazy k = Option.none := by
  match fuel with
  | 0 => simp [getItem] at hok
  | fuel + 1 =>
    rw [getItem_succ] at hok
    rw [if_pos (by simp [hpending, heval])] at hok
    obtain ⟨f₂, log₂, happ, hf, hlog⟩ := finishGet_ok_inv hok
    subst hf
    have hsub2 : f₂.lazy.Sublist f.lazy := by
      rcases applyLoader_ok_inv happ with ⟨hf₂, _⟩ | ⟨k', _, hrec⟩
      · subst hf₂
        exact List.Sublist.refl _
      · have h2 := getItem_lazy_sublist hrec
        exact h2
    exact alookup_aerase_of_nodup f₂.lazy k (nodup_keys_of_sublist hsub2 hnd)

end ProtocolFile

/-! Claim theorems. -/

/-- C1: for every `ProtocolFile` (with duplicate-free maps, the key not
mid-evaluation) and every key `k` with a registered pending loader, a
successful `get(k)` leaves `k` in the eager store with the returned value
and its pending loader removed, the loader for `k` ran at most once, and a
second `get(k)` returns the identical value with identical final state and
invokes no loader at all. -/
theorem getItem_at_most_once (fuel fuel₂ : Nat) (f f' : ProtocolFile) (k : String)
    (v : Value) (log : List String)
    (hnd : (f.lazy.map Prod.fst).Nodup)
    (hpending : (alookup f.lazy k).isSome)
    (heval : f.evaluating.count k = 0)
    (hfuel₂ : 0 < fuel₂)
    (hok : ProtocolFile.getItem fuel f k = .ok (v, f', log)) :
    alookup f'.store k = some v ∧
    alookup f'.lazy k = Option.none ∧
    log.count k ≤ 1 ∧
    ProtocolFile.getItem fuel₂ f' k = .ok (v, f', []) := by
  have h1 := ProtocolFile.getItem_store_lookup hok
  have h2 := ProtocolFile.getItem_lazy_removed hnd hpending heval hok
  refine ⟨h1, h2, ProtocolFile.getItem_count_le_one hok, ?_⟩
  obtain ⟨m, rfl⟩ : ∃ m, fuel₂ = m + 1 := ⟨fuel₂ - 1, by omega⟩
  rw [ProtocolFile.getItem_succ]
  rw [if_neg (by simp [h2])]
  rw [h1]

/-- Witness for C1 at a concrete record: `uri` is pending with a constant
loader; reading it twice yields the loaded value both times, with the key
migrated to the eager store after the first read. -/
theorem getItem_at_most_once_witness :
    alookup (ProtocolFile.mk [("database", Value.str "db"), ("uri", Value.str "f1")] [] []).store
        "uri" = some (Value.str "f1") ∧
    alookup (ProtocolFile.mk [("database", Value.str "db"), ("uri", Value.str "f1")] [] []).lazy
        "uri" = Option.none ∧
    (["uri"] : List String).count "uri" ≤ 1 ∧
    ProtocolFile.getItem 1
        (ProtocolFile.mk [("database", Value.str "db"), ("uri", Value.str "f1")] [] []) "uri" =
      .ok (Value.str "f1",
        ProtocolFile.mk [("database", Value.str "db"), ("uri", Value.str "f1")] [] [], []) :=
  getItem_at_most_once 3 1
    (ProtocolFile.mk [("database", Value.str "db")] [("uri", Loader.const (Value.str "f1"))] [])
    (ProtocolFile.mk [("database", Value.str "db"), ("uri", Value.str "f1")] [] [])
    "uri" (Value.str "f1") ["uri"]
    (by simp) (by rfl) (by rfl) (by omega) (by rfl)

/-- C5: a key present in both the eager store and the pending map, whose
loader reads the very same key of the record, is safe: the inner read hits
the positive evaluating counter, so it returns the eager value without
re-entering the loader; the loader therefore runs exactly once (log `[k]`)
and its result (the eager value) is re-stored. -/
theorem getItem_self_referential_guard (fuel : Nat) (f : ProtocolFile) (k : String) (v : Value)
    (hstore : alookup f.store k = some v)
    (hlazy : alookup f.lazy k = some (Loader.getKey k))
    (heval : f.evaluating.count k = 0) :
    ProtocolFile.getItem (fuel + 2) f k =
      .ok (v, ⟨ainsert f.store k v, aerase f.lazy k, f.evaluating⟩, [k]) := by
  rw [ProtocolFile.getItem_succ]
  rw [if_pos (by simp [hlazy, heval])]
  unfold ProtocolFile.applyLoader
  simp only [hlazy]
  rw [ProtocolFile.getItem_succ]
  rw [if_neg (by simp [List.count_cons])]
  simp only [hstore]
  rw [ProtocolFile.finishGet_ok]
  simp [List.erase_cons_head]

/-- Witness for C5 at a concrete record: key `x` is eager (`1`) and pending
with a self-reading loader; `get(x)` terminates and returns the eager value,
invoking the loader once. -/
theorem getItem_self_referential_guard_witness :
    ProtocolFile.getItem 2
        (ProtocolFile.mk [("x", Value.int 1)] [("x", Loader.getKey "x")] []) "x" =
      .ok (Value.int 1,
        ⟨ainsert [("x", Value.int 1)] "x" (Value.int 1),
          aerase [("x", Loader.getKey "x")] "x", []⟩, ["x"]) :=
  getItem_self_referential_guard 0
    (ProtocolFile.mk [("x", Value.int 1)] [("x", Loader.getKey "x")] [])
    "x" (Value.int 1) (by rfl) (by rfl) (by rfl)

theorem expandEntries_all_scalar (n : Nat) (store : List (String × Value))
    (h : ∀ e ∈ store, e.1 ≠ "uri" → e.2.isList = false) :
    ProtocolFile.expandEntries n store =
      .ok ((store.filter (fun e => e.1 != "uri")).map (fun e => (e.1, Sum.inl e.2))) := by
  induction store with
  | nil => rfl
  | cons e rest ih =>
    obtain ⟨k, v⟩ := e
    have hrest : ∀ e ∈ rest, e.1 ≠ "uri" → e.2.isList = false :=
      fun e he => h e (List.mem_cons_of_mem _ he)
    by_cases hk : k = "uri"
    · subst hk
      unfold ProtocolFile.expandEntries
      rw [if_pos rfl, ih hrest]
      simp
    · have hv : v.isList = false := h (k, v) (List.mem_cons_self _ _) hk
      unfold ProtocolFile.expandEntries
      rw [if_neg hk]
      cases v with
      | list l => simp [Value.isList] at hv
      | str s => rw [ih hrest]; simp [hk]
      | int n' => rw [ih hrest]; simp [hk]
      | none => rw [ih hrest]; simp [hk]
      | dict es => rw [ih hrest]; simp [hk]

theorem expandEntries_mismatch (n : Nat) (store : List (String × Value))
    (h : ∃ e ∈ store, e.1 ≠ "uri" ∧ ∃ l, e.2 = Value.list l ∧ l.length ≠ n) :
    ProtocolFile.expandEntries n store = .error .valueError := by
  induction store with
  | nil => simp at h
  | cons e rest ih =>
    obtain ⟨k, v⟩ := e
    unfold ProtocolFile.expandEntries
    rcases h with ⟨e₀, he₀, hk₀, l₀, hv₀, hl₀⟩
    rcases List.mem_cons.mp he₀ with rfl | hmem
    · rw [if_neg hk₀]
      simp only at hv₀
      subst hv₀
      dsimp only
      rw [if_neg hl₀]
    · have hrest : ProtocolFile.expandEntries n rest = .error .valueError :=
        ih ⟨e₀, hmem, hk₀, l₀, hv₀, hl₀⟩
      by_cases hk : k = "uri"
      · rw [if_pos hk]
        exact hrest
      · rw [if_neg hk]
        cases v with
        | list l =>
          dsimp only
          by_cases hl : l.length = n
          · rw [if_pos hl, hrest]
          · rw [if_neg hl]
        | str s => dsimp only; rw [hrest]
        | int n' => dsimp only; rw [hrest]
        | none => dsimp only; rw [hrest]
        | dict es => dsimp only; rw [hrest]

/-- C3 (amended: additionally, no pending loader may be registered for
`uri`, since `expand` reads `uri` through `__getitem__`, which would replace
the eager list with the loader's output): on a record whose eager `uri` is a
3-element list, (1) when every other eager field is a non-list, `expand`
yields exactly 3 records that carry the same pending loaders, the same other
eager fields, and differ only in `uri` (record `i` taking the `i`-th uri);
(2) when some other eager field is a list of different length, `expand`
raises `ValueError`; (3) when the eager `uri` is not a list, `expand` yields
the record itself, alone. -/
theorem expandFile_expand_spec (f : ProtocolFile) (fuel : Nat)
    (hlazyuri : alookup f.lazy "uri" = Option.none) :
    (∀ us, alookup f.store "uri" = some (.list us) → us.length = 3 →
      (∀ e ∈ f.store, e.1 ≠ "uri" → e.2.isList = false) →
      ProtocolFile.expandFile (fuel + 1) f =
        .ok ((List.range 3).map (fun i =>
          ⟨("uri", us.getD i Value.none) :: f.store.filter (fun e => e.1 != "uri"),
            f.lazy, []⟩))) ∧
    (∀ us, alookup f.store "uri" = some (.list us) → us.length = 3 →
      (∃ e ∈ f.store, e.1 ≠ "uri" ∧ ∃ l, e.2 = Value.list l ∧ l.length ≠ 3) →
      ProtocolFile.expandFile (fuel + 1) f = .error .valueError) ∧
    (∀ v, alookup f.store "uri" = some v → v.isList = false →
      ProtocolFile.expandFile (fuel + 1) f = .ok [f]) := by
  have hget : ∀ v, alookup f.store "uri" = some v →
      ProtocolFile.getItem (fuel + 1) f "uri" = .ok (v, f, []) := by
    intro v hv
    rw [ProtocolFile.getItem_succ, if_neg (by simp [hlazyuri]), hv]
  refine ⟨?_, ?_, ?_⟩
  · intro us hus hlen hscalar
    unfold ProtocolFile.expandFile
    rw [hget _ hus]
    simp only
    rw [expandEntries_all_scalar us.length f.store hscalar]
    simp only [hlen, List.map_map]
    have hcomp : ∀ i : Nat,
        List.map ((fun c : String × (Value ⊕ List Value) =>
            (c.1, ProtocolFile.selectCol i c.2)) ∘
          (fun e : String × Value => (e.1, Sum.inl e.2)))
          (f.store.filter (fun e => e.1 != "uri")) =
        f.store.filter (fun e => e.1 != "uri") := by
      intro i
      have hid : ((fun c : String × (Value ⊕ List Value) =>
            (c.1, ProtocolFile.selectCol i c.2)) ∘
          (fun e : String × Value => (e.1, Sum.inl e.2))) = id := by
        funext e
        simp [ProtocolFile.selectCol]
      rw [hid, List.map_id]
    simp only [hcomp]
  · intro us hus hlen hbad
    unfold ProtocolFile.expandFile
    rw [hget _ hus]
    simp only
    rw [expandEntries_mismatch us.length f.store (by rw [hlen]; exact hbad)]
  · intro v hv hnl
    unfold ProtocolFile.expandFile
    rw [hget _ hv]
    cases v with
    | list l => simp [Value.isList] at hnl
    | str s => rfl
    | int n => rfl
    | none => rfl
    | dict es => rfl

/-- Counterexample to C3 as stated: a record whose *eager* `uri` is a
3-element list, with no other eager field at all, but with a pending loader
registered for `uri` returning a scalar — `expand` yields a single record,
not 3, because `self["uri"]` runs the pending loader and overwrites the
eager list. -/
theorem expandFile_pending_uri_counterexample :
    (ProtocolFile.expandFile 2
        (ProtocolFile.mk [("uri", Value.list [Value.str "a", Value.str "b", Value.str "c"])]
          [("uri", Loader.const (Value.str "x"))] [])).map List.length = .ok 1 ∧
    (1 : Nat) ≠ 3 :=
  ⟨rfl, by omega⟩

/-- Witness for the amended C3 at a concrete record (`uri` a 3-element
eager list, one scalar eager field, one pending loader): `expand` yields
exactly the 3 broadcast records. -/
theorem expandFile_expand_spec_witness :
    ProtocolFile.expandFile 1
        (ProtocolFile.mk
          [("uri", Value.list [Value.str "a", Value.str "b", Value.str "c"]),
           ("database", Value.str "d")]
          [("annotated", Loader.template "t/\x7buri\x7d.uem")] []) =
      .ok ((List.range 3).map (fun i =>
        ⟨("uri", [Value.str "a", Value.str "b", Value.str "c"].getD i Value.none) ::
            ([("uri", Value.list [Value.str "a", Value.str "b", Value.str "c"]),
              ("database", Value.str "d")].filter
                (fun e : String × Value => e.1 != "uri")),
          [("annotated", Loader.template "t/\x7buri\x7d.uem")], []⟩)) :=
  (expandFile_expand_spec
    (ProtocolFile.mk
      [("uri", Value.list [Value.str "a", Value.str "b", Value.str "c"]),
       ("database", Value.str "d")]
      [("annotated", Loader.template "t/\x7buri\x7d.uem")] []) 0 (by rfl)).1
    [Value.str "a", Value.str "b", Value.str "c"] (by rfl) (by rfl)
    (by
      intro e he hk
      simp only [List.mem_cons, List.not_mem_nil, or_false] at he
      rcases he with rfl | rfl
      · exact absurd rfl hk
      · rfl)

theorem alookup_foldl_ainsert_not_mem {κ α : Type} [DecidableEq κ]
    (md : List (κ × α)) (base : List (κ × α)) (k : κ)
    (h : k ∉ md.map Prod.fst) :
    alookup (md.foldl (fun acc e => ainsert acc e.1 e.2) base) k = alookup base k := by
  induction md generalizing base with
  | nil => rfl
  | cons e rest ih =>
    simp only [List.map_cons, List.mem_cons] at h
    push_neg at h
    rw [List.foldl_cons, ih _ h.2]
    exact alookup_ainsert_ne _ _ _ _ (fun hc => h.1 hc.symm)

theorem alookup_foldl_ainsert_mem {κ α : Type} [DecidableEq κ]
    (md : List (κ × α)) (base : List (κ × α)) (k : κ) (v : α)
    (hnd : (md.map Prod.fst).Nodup) (h : alookup md k = some v) :
    alookup (md.foldl (fun acc e => ainsert acc e.1 e.2) base) k = some v := by
  induction md generalizing base with
  | nil => simp at h
  | cons e rest ih =>
    obtain ⟨k', v'⟩ := e
    simp only [List.map_cons, List.nodup_cons] at hnd
    rw [List.foldl_cons]
    by_cases hk : k' = k
    · subst hk
      rw [alookup_cons, if_pos rfl] at h
      injection h with h
      subst h
      rw [alookup_foldl_ainsert_not_mem rest _ k' hnd.1]
      exact alookup_ainsert _ _ _
    · rw [alookup_cons, if_neg hk] at h
      exact ih _ hnd.2 h

theorem readlinesAux_length (cs : List Char) : ∀ acc : List Char,
    (readlinesAux cs acc).length =
      cs.count '\n' +
        (if cs = [] then (if acc = [] then 0 else 1)
         else if cs.getLast? = some '\n' then 0 else 1) := by
  induction cs with
  | nil =>
    intro acc
    cases acc <;> simp [readlinesAux]
  | cons c rest ih =>
    intro acc
    by_cases hc : c = '\n'
    · subst hc
      have hstep : readlinesAux ('\n' :: rest) acc =
          (acc.reverse ++ ['\n']) :: readlinesAux rest [] := by
        conv_lhs => unfold readlinesAux
        rw [if_pos rfl]
      rw [hstep, List.length_cons, ih []]
      cases rest with
      | nil => simp
      | cons r rs =>
        by_cases hl : (r :: rs).getLast? = some '\n' <;>
          simp [List.count_cons, List.getLast?_cons_cons, hl] <;> omega
    · have hstep : readlinesAux (c :: rest) acc = readlinesAux rest (c :: acc) := by
        conv_lhs => unfold readlinesAux
        rw [if_neg hc]
      rw [hstep, ih (c :: acc)]
      cases rest with
      | nil => simp [List.count_cons, hc]
      | cons r rs =>
        by_cases hl : (r :: rs).getLast? = some '\n' <;>
          simp [List.count_cons, List.getLast?_cons_cons, hl, hc] <;> omega

/-- `load_lst` produces exactly one entry per line: the entry count equals
the independent line count of the file. -/
theorem loadLst_length (content : List Char) :
    (loadLst content).length = numLines content := by
  unfold loadLst readlinesChars numLines
  rw [List.length_map, readlinesAux_length content []]
  by_cases h : content = []
  · subst h
    simp
  · by_cases hl : content.getLast? = some '\n' <;> simp [h, hl]

/-- C10: `load_lst` yields one whitespace-stripped entry per line with no
filtering, so for any subset whose uri list resolves and whose remaining
entries gather successfully, the records yielded by `subset_iter` are in
bijection with the lines of the list file: the record count equals the line
count, record `i` carries the `i`-th stripped line as its `uri`, and a blank
line yields a record whose `uri` is the empty string. -/
theorem subsetIter_line_per_record (fs : FileSystem)
    (database task protocol subset uriPath : String) (content : List Char)
    (entries metadata : List (String × Value)) (loaders : List (String × Loader))
    (records : List ProtocolFile)
    (huri : alookup entries "uri" = some (.str uriPath))
    (hfs : fs uriPath = some content)
    (hgather : gatherLoaders fs entries = .ok loaders)
    (hmeta : "uri" ∉ metadata.map Prod.fst)
    (hrec : subsetIter fs database task protocol subset entries metadata = .ok records) :
    records.length = numLines content ∧
    (∀ i, (hi : i < records.length) →
      alookup records[i].store "uri" =
        some (.str (String.mk (pyStrip ((readlinesChars content).getD i [])))) ∧
      (pyStrip ((readlinesChars content).getD i []) = [] →
        alookup records[i].store "uri" = some (.str ""))) := by
  unfold subsetIter at hrec
  rw [huri] at hrec
  simp only [hfs, hgather] at hrec
  simp only [Except.ok.injEq] at hrec
  subst hrec
  have hlen : ((loadLst content).map (fun u =>
      (⟨metadata.foldl (fun acc e => ainsert acc e.1 e.2)
          [("uri", .str u), ("database", .str database), ("subset", .str subset)],
        loaders, []⟩ : ProtocolFile))).length = numLines content := by
    rw [List.length_map, loadLst_length]
  refine ⟨hlen, ?_⟩
  intro i hi
  rw [List.length_map] at hi
  have hidx : ((loadLst content).map (fun u =>
      (⟨metadata.foldl (fun acc e => ainsert acc e.1 e.2)
          [("uri", .str u), ("database", .str database), ("subset", .str subset)],
        loaders, []⟩ : ProtocolFile)))[i] =
      (⟨metadata.foldl (fun acc e => ainsert acc e.1 e.2)
          [("uri", .str ((loadLst content)[i])),
           ("database", .str database), ("subset", .str subset)],
        loaders, []⟩ : ProtocolFile) := by
    rw [List.getElem_map]
  have hline : (loadLst content)[i] =
      String.mk (pyStrip ((readlinesChars content).getD i [])) := by
    unfold loadLst
    rw [List.getElem_map]
    congr 1
    have hi' : i < (readlinesChars content).length := by
      unfold loadLst at hi
      rw [List.length_map] at hi
      exact hi
    rw [List.getD_eq_getElem _ _ hi']
  have hmain : alookup (((loadLst content).map (fun u =>
      (⟨metadata.foldl (fun acc e => ainsert acc e.1 e.2)
          [("uri", .str u), ("database", .str database), ("subset", .str subset)],
        loaders, []⟩ : ProtocolFile)))[i]).store "uri" =
      some (.str (String.mk (pyStrip ((readlinesChars content).getD i [])))) := by
    rw [hidx]
    show alookup (metadata.foldl (fun acc e => ainsert acc e.1 e.2) _) "uri" = _
    rw [alookup_foldl_ainsert_not_mem _ _ _ hmeta]
    simp [hline]
  exact ⟨hmain, fun hblank => by rw [hmain, hblank]⟩

/-- Witness for C10 at a concrete subset whose list file is
`"f1\n\nf2\n"` (three lines, the second blank): three records, the second
with an empty `uri`. -/
theorem subsetIter_line_per_record_witness :
    ([(⟨[("uri", Value.str "f1"), ("database", Value.str "D"), ("subset", Value.str "train")],
        [], []⟩ : ProtocolFile),
      ⟨[("uri", Value.str ""), ("database", Value.str "D"), ("subset", Value.str "train")],
        [], []⟩,
      ⟨[("uri", Value.str "f2"), ("database", Value.str "D"), ("subset", Value.str "train")],
        [], []⟩] : List ProtocolFile).length = numLines ("f1\n\nf2\n".data) ∧
    (∀ i, (hi : i < ([(⟨[("uri", Value.str "f1"), ("database", Value.str "D"),
            ("subset", Value.str "train")], [], []⟩ : ProtocolFile),
          ⟨[("uri", Value.str ""), ("database", Value.str "D"),
            ("subset", Value.str "train")], [], []⟩,
          ⟨[("uri", Value.str "f2"), ("database", Value.str "D"),
            ("subset", Value.str "train")], [], []⟩] : List ProtocolFile).length) →
      alookup ([(⟨[("uri", Value.str "f1"), ("database", Value.str "D"),
            ("subset", Value.str "train")], [], []⟩ : ProtocolFile),
          ⟨[("uri", Value.str ""), ("database", Value.str "D"),
            ("subset", Value.str "train")], [], []⟩,
          ⟨[("uri", Value.str "f2"), ("database", Value.str "D"),
            ("subset", Value.str "train")], [], []⟩] : List ProtocolFile)[i].store "uri" =
        some (.str (String.mk (pyStrip ((readlinesChars ("f1\n\nf2\n".data)).getD i [])))) ∧
      (pyStrip ((readlinesChars ("f1\n\nf2\n".data)).getD i []) = [] →
        alookup ([(⟨[("uri", Value.str "f1"), ("database", Value.str "D"),
              ("subset", Value.str "train")], [], []⟩ : ProtocolFile),
            ⟨[("uri", Value.str ""), ("database", Value.str "D"),
              ("subset", Value.str "train")], [], []⟩,
            ⟨[("uri", Value.str "f2"), ("database", Value.str "D"),
              ("subset", Value.str "train")], [], []⟩] : List ProtocolFile)[i].store "uri" =
          some (.str ""))) :=
  subsetIter_line_per_record
    (fun p => if p = "train.lst" then some ("f1\n\nf2\n".data) else Option.none)
    "D" "SpeakerDiarization" "P" "train" "train.lst" ("f1\n\nf2\n".data)
    [("uri", Value.str "train.lst")] [] [] _
    (by rfl) (by rfl) (by rfl) (by simp) (by rfl)

theorem preprocessAll_append (fuel : Nat) (pre : List (String × Loader))
    (l1 l2 : List ProtocolFile) (r1 r2 : List ProtocolFile)
    (h1 : preprocessAll fuel pre l1 = .ok r1)
    (h2 : preprocessAll fuel pre l2 = .ok r2) :
    preprocessAll fuel pre (l1 ++ l2) = .ok (r1 ++ r2) := by
  induction l1 generalizing r1 with
  | nil =>
    unfold preprocessAll at h1
    injection h1 with h1
    subst h1
    simpa using h2
  | cons f fsR ih =>
    rw [List.cons_append]
    unfold preprocessAll at h1 ⊢
    split at h1
    · exact absurd h1 (by simp)
    · rename_i f' hpre
      split at h1
      · exact absurd h1 (by simp)
      · rename_i rest hrest
        injection h1 with h1
        subst h1
        rw [ih rest hrest]
        rfl

/-- C6: iterating the `train()` of a meta-protocol whose train subset
declares `{P1: [train], P2: [train, development]}` yields exactly the
concatenation of `P1.train()`, then `P2.train()`, then `P2.development()`,
in declared order, with no deduplication — both sides preprocess the records
of the referenced protocols' `{subset}_iter` methods identically. -/
theorem metaTrain_concatenation (fuel : Nat)
    (resolve : String → Option (List (String × List ProtocolFile)))
    (nameP1 nameP2 : String) (p1 p2 : List (String × List ProtocolFile))
    (l1 l2 l3 t1 t2 t3 : List ProtocolFile)
    (hres1 : resolve nameP1 = some p1) (hres2 : resolve nameP2 = some p2)
    (hl1 : alookup p1 "train" = some l1) (hl2 : alookup p2 "train" = some l2)
    (hl3 : alookup p2 "development" = some l3)
    (ht1 : sdSubsetMethod fuel [] p1 "train" = .ok t1)
    (ht2 : sdSubsetMethod fuel [] p2 "train" = .ok t2)
    (ht3 : sdSubsetMethod fuel [] p2 "development" = .ok t3) :
    metaTrain fuel resolve [(nameP1, ["train"]), (nameP2, ["train", "development"])] =
      .ok (t1 ++ t2 ++ t3) := by
  have hp1 : preprocessAll fuel [] l1 = .ok t1 := by
    unfold sdSubsetMethod at ht1
    rw [hl1] at ht1
    exact ht1
  have hp2 : preprocessAll fuel [] l2 = .ok t2 := by
    unfold sdSubsetMethod at ht2
    rw [hl2] at ht2
    exact ht2
  have hp3 : preprocessAll fuel [] l3 = .ok t3 := by
    unfold sdSubsetMethod at ht3
    rw [hl3] at ht3
    exact ht3
  have hconcat : metaSubsetIter resolve
      [(nameP1, ["train"]), (nameP2, ["train", "development"])] =
      .ok ((l1 ++ []) ++ ((l2 ++ (l3 ++ [])) ++ [])) := by
    simp only [metaSubsetIter, subsetsConcat, hres1, hres2, hl1, hl2, hl3]
  unfold metaTrain
  rw [hconcat]
  dsimp only
  have hl : (l1 ++ []) ++ ((l2 ++ (l3 ++ [])) ++ []) = l1 ++ (l2 ++ l3) := by simp
  rw [hl]
  rw [preprocessAll_append fuel [] l1 (l2 ++ l3) t1 (t2 ++ t3) hp1
    (preprocessAll_append fuel [] l2 l3 t2 t3 hp2 hp3)]
  rw [List.append_assoc]

/-- Witness for C6 at concrete one-record subsets. -/
theorem metaTrain_concatenation_witness :
    metaTrain 1
        (fun n =>
          if n = "A.SpeakerDiarization.P1" then
            some [("train", [(⟨[("uri", Value.str "a")], [], []⟩ : ProtocolFile)])]
          else if n = "B.SpeakerDiarization.P2" then
            some [("train", [(⟨[("uri", Value.str "b")], [], []⟩ : ProtocolFile)]),
                  ("development", [(⟨[("uri", Value.str "c")], [], []⟩ : ProtocolFile)])]
          else Option.none)
        [("A.SpeakerDiarization.P1", ["train"]),
         ("B.SpeakerDiarization.P2", ["train", "development"])] =
      .ok ([(⟨[("uri", Value.str "a")], [], []⟩ : ProtocolFile)] ++
        [(⟨[("uri", Value.str "b")], [], []⟩ : ProtocolFile)] ++
        [(⟨[("uri", Value.str "c")], [], []⟩ : ProtocolFile)]) :=
  metaTrain_concatenation 1
    (fun n =>
      if n = "A.SpeakerDiarization.P1" then
        some [("train", [(⟨[("uri", Value.str "a")], [], []⟩ : ProtocolFile)])]
      else if n = "B.SpeakerDiarization.P2" then
        some [("train", [(⟨[("uri", Value.str "b")], [], []⟩ : ProtocolFile)]),
              ("development", [(⟨[("uri", Value.str "c")], [], []⟩ : ProtocolFile)])]
      else Option.none)
    "A.SpeakerDiarization.P1" "B.SpeakerDiarization.P2"
    [("train", [(⟨[("uri", Value.str "a")], [], []⟩ : ProtocolFile)])]
    [("train", [(⟨[("uri", Value.str "b")], [], []⟩ : ProtocolFile)]),
     ("development", [(⟨[("uri", Value.str "c")], [], []⟩ : ProtocolFile)])]
    [(⟨[("uri", Value.str "a")], [], []⟩ : ProtocolFile)]
    [(⟨[("uri", Value.str "b")], [], []⟩ : ProtocolFile)]
    [(⟨[("uri", Value.str "c")], [], []⟩ : ProtocolFile)]
    [(⟨[("uri", Value.str "a")], [], []⟩ : ProtocolFile)]
    [(⟨[("uri", Value.str "b")], [], []⟩ : ProtocolFile)]
    [(⟨[("uri", Value.str "c")], [], []⟩ : ProtocolFile)]
    (by rfl) (by rfl) (by rfl) (by rfl) (by rfl) (by rfl) (by rfl) (by rfl)

/-- A configuration source declaring exactly one protocol (the spec's
conflict scenario: source A declares `Db.Task.P`). -/
def singleConfig (db task protocol : String) (defn : ProtoDef) (path : String) : Config :=
  ⟨[(db, [((task, protocol), defn)])], [], path⟩

theorem mergeProtocolsInplace_single (mode : LoadingMode)
    (db dbyml task protocol : String) (vA vB : ProtoDef) :
    mergeProtocolsInplace mode db dbyml
        [((task, protocol), vB)] [((task, protocol), vA)] =
      match mode with
      | .error => .error (.protocolExists db task protocol dbyml)
      | .override => .ok ([((task, protocol), vB)], [db ++ "." ++ task ++ "." ++ protocol])
      | .keep => .ok ([((task, protocol), vA)], [db ++ "." ++ task ++ "." ++ protocol]) := by
  cases mode <;> simp [mergeProtocolsInplace, alookup, ainsert]

theorem loadDatabase_single_into_empty (db task protocol : String) (vA : ProtoDef)
    (pathA : String) (hdb : db ≠ "X") :
    loadDatabase .override (singleConfig db task protocol vA pathA) Registry.empty =
      (⟨[(pathA, singleConfig db task protocol vA pathA)], [],
        [(db, [((task, protocol), vA)])]⟩, [], Option.none) := by
  simp [loadDatabase, loadDatabaseHelper, loadProtocolsLoop, loadProtocols,
    reloadMetaProtocols, singleConfig, Registry.empty, hdb, alookup, ainsert, aerase]

/-- C4: after source A registers `(db, task, protocol)` and source B
re-declares it, loading B with KEEP leaves the triple resolving to A's
definition (with a warning naming the protocol), with OVERRIDE to B's
definition (with a warning), and with ERROR the load raises and the triple
still resolves to A's definition. -/
theorem registry_conflict_modes (db task protocol : String) (vA vB : ProtoDef)
    (pathA pathB : String) (hdb : db ≠ "X") (hpath : pathA ≠ pathB) :
    (loadDatabase .override (singleConfig db task protocol vA pathA) Registry.empty).2.2 =
      Option.none ∧
    getProtocolDef
      (loadDatabase .override (singleConfig db task protocol vA pathA) Registry.empty).1
      db task protocol = some vA ∧
    ((loadDatabase .keep (singleConfig db task protocol vB pathB)
        (loadDatabase .override (singleConfig db task protocol vA pathA) Registry.empty).1).2.2 =
      Option.none ∧
     getProtocolDef
      (loadDatabase .keep (singleConfig db task protocol vB pathB)
        (loadDatabase .override (singleConfig db task protocol vA pathA) Registry.empty).1).1
      db task protocol = some vA ∧
     (loadDatabase .keep (singleConfig db task protocol vB pathB)
        (loadDatabase .override (singleConfig db task protocol vA pathA) Registry.empty).1).2.1 =
      [db ++ "." ++ task ++ "." ++ protocol]) ∧
    ((loadDatabase .override (singleConfig db task protocol vB pathB)
        (loadDatabase .override (singleConfig db task protocol vA pathA) Registry.empty).1).2.2 =
      Option.none ∧
     getProtocolDef
      (loadDatabase .override (singleConfig db task protocol vB pathB)
        (loadDatabase .override (singleConfig db task protocol vA pathA) Registry.empty).1).1
      db task protocol = some vB ∧
     (loadDatabase .override (singleConfig db task protocol vB pathB)
        (loadDatabase .override (singleConfig db task protocol vA pathA) Registry.empty).1).2.1 =
      [db ++ "." ++ task ++ "." ++ protocol]) ∧
    ((loadDatabase .error (singleConfig db task protocol vB pathB)
        (loadDatabase .override (singleConfig db task protocol vA pathA) Registry.empty).1).2.2 =
      some (.protocolExists db task protocol pathB) ∧
     getProtocolDef
      (loadDatabase .error (singleConfig db task protocol vB pathB)
        (loadDatabase .override (singleConfig db task protocol vA pathA) Registry.empty).1).1
      db task protocol = some vA) := by
  have hA := loadDatabase_single_into_empty db task protocol vA pathA hdb
  have hK : loadDatabase .keep (singleConfig db task protocol vB pathB)
      (⟨[(pathA, singleConfig db task protocol vA pathA)], [],
        [(db, [((task, protocol), vA)])]⟩ : Registry) =
      (⟨[(pathA, singleConfig db task protocol vA pathA),
         (pathB, singleConfig db task protocol vB pathB)], [],
        [(db, [((task, protocol), vA)])]⟩,
       [db ++ "." ++ task ++ "." ++ protocol], Option.none) := by
    simp [loadDatabase, loadDatabaseHelper, loadProtocolsLoop, loadProtocols,
      mergeProtocolsInplace_single, reloadMetaProtocols, singleConfig, hdb, hpath,
      alookup, ainsert, aerase]
  have hO : loadDatabase .override (singleConfig db task protocol vB pathB)
      (⟨[(pathA, singleConfig db task protocol vA pathA)], [],
        [(db, [((task, protocol), vA)])]⟩ : Registry) =
      (⟨[(pathA, singleConfig db task protocol vA pathA),
         (pathB, singleConfig db task protocol vB pathB)], [],
        [(db, [((task, protocol), vB)])]⟩,
       [db ++ "." ++ task ++ "." ++ protocol], Option.none) := by
    simp [loadDatabase, loadDatabaseHelper, loadProtocolsLoop, loadProtocols,
      mergeProtocolsInplace_single, reloadMetaProtocols, singleConfig, hdb, hpath,
      alookup, ainsert, aerase]
  have hE : loadDatabase .error (singleConfig db task protocol vB pathB)
      (⟨[(pathA, singleConfig db task protocol vA pathA)], [],
        [(db, [((task, protocol), vA)])]⟩ : Registry) =
      (⟨[(pathA, singleConfig db task protocol vA pathA)], [],
        [(db, [((task, protocol), vA)])]⟩, [],
       some (.protocolExists db task protocol pathB)) := by
    simp [loadDatabase, loadDatabaseHelper, loadProtocolsLoop, loadProtocols,
      mergeProtocolsInplace_single, reloadMetaProtocols, singleConfig, hdb,
      alookup, ainsert, aerase]
  rw [hA]
  refine ⟨rfl, by simp [getProtocolDef, alookup], ?_, ?_, ?_⟩
  · rw [hK]
    exact ⟨rfl, by simp [getProtocolDef, alookup], rfl⟩
  · rw [hO]
    exact ⟨rfl, by simp [getProtocolDef, alookup], rfl⟩
  · rw [hE]
    exact ⟨rfl, by simp [getProtocolDef, alookup]⟩

/-- C7 (amended): when a source re-declaring an existing triple is loaded in
ERROR mode, the load raises while processing that database — before the
`sources` and `configs` maps are touched and before the conflicting
database's entry is reassigned, so the triple still resolves to the earlier
definition; however, databases that the failing source declares *before* the
conflicting one have already been registered when the error propagates. -/
theorem loadDatabase_error_partial_state (db task protocol dbC taskC protocolC : String)
    (vA vB vC : ProtoDef) (pathA pathB : String) (srcsB : List (String × List String))
    (hdb : db ≠ "X") (hdbC : dbC ≠ "X") (hne : dbC ≠ db) :
    (loadDatabase .error
        (⟨[(dbC, [((taskC, protocolC), vC)]), (db, [((task, protocol), vB)])],
          srcsB, pathB⟩ : Config)
        (loadDatabase .override (singleConfig db task protocol vA pathA) Registry.empty).1).2.2 =
      some (.protocolExists db task protocol pathB) ∧
    (loadDatabase .error
        (⟨[(dbC, [((taskC, protocolC), vC)]), (db, [((task, protocol), vB)])],
          srcsB, pathB⟩ : Config)
        (loadDatabase .override (singleConfig db task protocol vA pathA) Registry.empty).1).1.sources =
      (loadDatabase .override (singleConfig db task protocol vA pathA) Registry.empty).1.sources ∧
    (loadDatabase .error
        (⟨[(dbC, [((taskC, protocolC), vC)]), (db, [((task, protocol), vB)])],
          srcsB, pathB⟩ : Config)
        (loadDatabase .override (singleConfig db task protocol vA pathA) Registry.empty).1).1.configs =
      (loadDatabase .override (singleConfig db task protocol vA pathA) Registry.empty).1.configs ∧
    getProtocolDef
      (loadDatabase .error
        (⟨[(dbC, [((taskC, protocolC), vC)]), (db, [((task, protocol), vB)])],
          srcsB, pathB⟩ : Config)
        (loadDatabase .override (singleConfig db task protocol vA pathA) Registry.empty).1).1
      db task protocol = some vA ∧
    alookup
      (loadDatabase .error
        (⟨[(dbC, [((taskC, protocolC), vC)]), (db, [((task, protocol), vB)])],
          srcsB, pathB⟩ : Config)
        (loadDatabase .override (singleConfig db task protocol vA pathA) Registry.empty).1).1.databases
      dbC = some [((taskC, protocolC), vC)] := by
  have hA := loadDatabase_single_into_empty db task protocol vA pathA hdb
  rw [hA]
  have hB : loadDatabase .error
      (⟨[(dbC, [((taskC, protocolC), vC)]), (db, [((task, protocol), vB)])],
        srcsB, pathB⟩ : Config)
      (⟨[(pathA, singleConfig db task protocol vA pathA)], [],
        [(db, [((task, protocol), vA)])]⟩ : Registry) =
      (⟨[(pathA, singleConfig db task protocol vA pathA)], [],
        [(db, [((task, protocol), vA)]), (dbC, [((taskC, protocolC), vC)])]⟩, [],
       some (.protocolExists db task protocol pathB)) := by
    simp [loadDatabase, loadDatabaseHelper, loadProtocolsLoop, loadProtocols,
      mergeProtocolsInplace_single, singleConfig, hdb, hdbC, hne, hne.symm,
      alookup, ainsert]
  rw [hB]
  exact ⟨rfl, rfl, rfl, by simp [getProtocolDef, alookup],
    by simp [alookup, hne.symm]⟩

/-- Witness for the amended C7 at concrete names. -/
theorem loadDatabase_error_partial_state_witness :
    (loadDatabase .error
        (⟨[("C", [(("T", "P2"), "c")]), ("Db", [(("Task", "P"), "b")])], [], "pB"⟩ : Config)
        (loadDatabase .override (singleConfig "Db" "Task" "P" "a" "pA") Registry.empty).1).2.2 =
      some (.protocolExists "Db" "Task" "P" "pB") ∧
    (loadDatabase .error
        (⟨[("C", [(("T", "P2"), "c")]), ("Db", [(("Task", "P"), "b")])], [], "pB"⟩ : Config)
        (loadDatabase .override (singleConfig "Db" "Task" "P" "a" "pA") Registry.empty).1).1.sources =
      (loadDatabase .override (singleConfig "Db" "Task" "P" "a" "pA") Registry.empty).1.sources ∧
    (loadDatabase .error
        (⟨[("C", [(("T", "P2"), "c")]), ("Db", [(("Task", "P"), "b")])], [], "pB"⟩ : Config)
        (loadDatabase .override (singleConfig "Db" "Task" "P" "a" "pA") Registry.empty).1).1.configs =
      (loadDatabase .override (singleConfig "Db" "Task" "P" "a" "pA") Registry.empty).1.configs ∧
    getProtocolDef
      (loadDatabase .error
        (⟨[("C", [(("T", "P2"), "c")]), ("Db", [(("Task", "P"), "b")])], [], "pB"⟩ : Config)
        (loadDatabase .override (singleConfig "Db" "Task" "P" "a" "pA") Registry.empty).1).1
      "Db" "Task" "P" = some "a" ∧
    alookup
      (loadDatabase .error
        (⟨[("C", [(("T", "P2"), "c")]), ("Db", [(("Task", "P"), "b")])], [], "pB"⟩ : Config)
        (loadDatabase .override (singleConfig "Db" "Task" "P" "a" "pA") Registry.empty).1).1.databases
      "C" = some [(("T", "P2"), "c")] :=
  loadDatabase_error_partial_state "Db" "Task" "P" "C" "T" "P2" "a" "b" "c" "pA" "pB" []
    (by decide) (by decide) (by decide)

/-- Counterexample to C7 as stated: in ERROR mode the failed load is *not*
free of registry mutation with respect to the failing source — a database
(`"C"`) that the failing source declares before the conflicting one is
already registered in `databases` when the error propagates, although it was
absent before the load. -/
theorem loadDatabase_error_mutates_databases_counterexample :
    alookup ((loadDatabase .error
        (⟨[("C", [(("T", "P2"), "c")]), ("Db", [(("Task", "P"), "b")])], [], "pB"⟩ : Config)
        (loadDatabase .override (singleConfig "Db" "Task" "P" "a" "pA") Registry.empty).1).1).databases
      "C" = some [(("T", "P2"), "c")] ∧
    alookup ((loadDatabase .override (singleConfig "Db" "Task" "P" "a" "pA")
        Registry.empty).1).databases "C" = Option.none ∧
    (loadDatabase .error
        (⟨[("C", [(("T", "P2"), "c")]), ("Db", [(("Task", "P"), "b")])], [], "pB"⟩ : Config)
        (loadDatabase .override (singleConfig "Db" "Task" "P" "a" "pA") Registry.empty).1).2.2 =
      some (RegistryError.protocolExists "Db" "Task" "P" "pB") :=
  ⟨rfl, rfl, rfl⟩

/-- Witness for C4 at concrete names and definitions. -/
theorem registry_conflict_modes_witness :
    (loadDatabase .override (singleConfig "Db" "Task" "P" "a" "pA") Registry.empty).2.2 =
      Option.none ∧
    getProtocolDef
      (loadDatabase .override (singleConfig "Db" "Task" "P" "a" "pA") Registry.empty).1
      "Db" "Task" "P" = some "a" ∧
    ((loadDatabase .keep (singleConfig "Db" "Task" "P" "b" "pB")
        (loadDatabase .override (singleConfig "Db" "Task" "P" "a" "pA") Registry.empty).1).2.2 =
      Option.none ∧
     getProtocolDef
      (loadDatabase .keep (singleConfig "Db" "Task" "P" "b" "pB")
        (loadDatabase .override (singleConfig "Db" "Task" "P" "a" "pA") Registry.empty).1).1
      "Db" "Task" "P" = some "a" ∧
     (loadDatabase .keep (singleConfig "Db" "Task" "P" "b" "pB")
        (loadDatabase .override (singleConfig "Db" "Task" "P" "a" "pA") Registry.empty).1).2.1 =
      ["Db" ++ "." ++ "Task" ++ "." ++ "P"]) ∧
    ((loadDatabase .override (singleConfig "Db" "Task" "P" "b" "pB")
        (loadDatabase .override (singleConfig "Db" "Task" "P" "a" "pA") Registry.empty).1).2.2 =
      Option.none ∧
     getProtocolDef
      (loadDatabase .override (singleConfig "Db" "Task" "P" "b" "pB")
        (loadDatabase .override (singleConfig "Db" "Task" "P" "a" "pA") Registry.empty).1).1
      "Db" "Task" "P" = some "b" ∧
     (loadDatabase .override (singleConfig "Db" "Task" "P" "b" "pB")
        (loadDatabase .override (singleConfig "Db" "Task" "P" "a" "pA") Registry.empty).1).2.1 =
      ["Db" ++ "." ++ "Task" ++ "." ++ "P"]) ∧
    ((loadDatabase .error (singleConfig "Db" "Task" "P" "b" "pB")
        (loadDatabase .override (singleConfig "Db" "Task" "P" "a" "pA") Registry.empty).1).2.2 =
      some (.protocolExists "Db" "Task" "P" "pB") ∧
     getProtocolDef
      (loadDatabase .error (singleConfig "Db" "Task" "P" "b" "pB")
        (loadDatabase .override (singleConfig "Db" "Task" "P" "a" "pA") Registry.empty).1).1
      "Db" "Task" "P" = some "a") :=
  registry_conflict_modes "Db" "Task" "P" "a" "b" "pA" "pB"
    (by decide) (by decide)

theorem alookup_aerase_ne {κ α : Type} [DecidableEq κ] (l : List (κ × α)) (k k₀ : κ)
    (h : k ≠ k₀) : alookup (aerase l k₀) k = alookup l k := by
  induction l with
  | nil => rfl
  | cons e rest ih =>
    obtain ⟨k', v'⟩ := e
    by_cases hk' : k' = k₀
    · subst hk'
      rw [aerase_cons, if_pos rfl, alookup_cons, if_neg (fun hc => h hc.symm)]
    · rw [aerase_cons, if_neg hk', alookup_cons, alookup_cons, ih]

/-- Every record yielded by a registered subset method of a created protocol
carries the protocol-level metadata in its eager seed: a metadata key (with
duplicate-free metadata) is looked up to its captured value on every record. -/
theorem createdSubsetRecords_metadata_lookup (fs : FileSystem) (cp : CreatedProtocol)
    (subset : String) (records : List ProtocolFile) (k : String) (v : Value)
    (hk : alookup cp.metadata k = some v)
    (hnd : (cp.metadata.map Prod.fst).Nodup)
    (hok : createdSubsetRecords fs cp subset = .ok records) :
    ∀ r ∈ records, alookup r.store k = some v := by
  unfold createdSubsetRecords at hok
  split at hok
  · exact absurd hok (by simp)
  · rename_i sentries hsub
    unfold subsetIter at hok
    dsimp only at hok
    split at hok
    · exact absurd hok (by simp)
    · rename_i uriVal huriVal
      split at hok
      · rename_i uriPath
        split at hok
        · exact absurd hok (by simp)
        · rename_i content hcontent
          split at hok
          · exact absurd hok (by simp)
          · rename_i loaders hloaders
            injection hok with hok
            subst hok
            intro r hr
            rw [List.mem_map] at hr
            obtain ⟨u, hu, rfl⟩ := hr
            exact alookup_foldl_ainsert_mem _ _ _ _ hnd hk
      · exact absurd hok (by simp)
  · exact absurd hok (by simp)

/-- Every record yielded by a registered subset method of a created protocol
carries *only* the seed keys and the metadata keys: a key that is none of
`uri`/`database`/`subset` and absent from the metadata is absent from every
record's eager seed. -/
theorem createdSubsetRecords_no_metadata_lookup (fs : FileSystem) (cp : CreatedProtocol)
    (subset : String) (records : List ProtocolFile) (k : String)
    (hk : k ∉ cp.metadata.map Prod.fst)
    (hku : k ≠ "uri") (hkd : k ≠ "database") (hks : k ≠ "subset")
    (hok : createdSubsetRecords fs cp subset = .ok records) :
    ∀ r ∈ records, alookup r.store k = Option.none := by
  unfold createdSubsetRecords at hok
  split at hok
  · exact absurd hok (by simp)
  · rename_i sentries hsub
    unfold subsetIter at hok
    dsimp only at hok
    split at hok
    · exact absurd hok (by simp)
    · rename_i uriVal huriVal
      split at hok
      · rename_i uriPath
        split at hok
        · exact absurd hok (by simp)
        · rename_i content hcontent
          split at hok
          · exact absurd hok (by simp)
          · rename_i loaders hloaders
            injection hok with hok
            subst hok
            intro r hr
            rw [List.mem_map] at hr
            obtain ⟨u, hu, rfl⟩ := hr
            rw [alookup_foldl_ainsert_not_mem _ _ _ hk]
            simp [alookup, Ne.symm hku, Ne.symm hkd, Ne.symm hks]
      · exact absurd hok (by simp)
  · exact absurd hok (by simp)

theorem firstOccurP_congr (l : List (String × ProtocolFile)) (s1 s2 : List String)
    (h : ∀ x, x ∈ s1 ↔ x ∈ s2) : firstOccurP l s1 = firstOccurP l s2 := by
  induction l generalizing s1 s2 with
  | nil => rfl
  | cons e rest ih =>
    obtain ⟨u, f⟩ := e
    by_cases hu : u ∈ s1
    · rw [firstOccurP, if_pos hu, firstOccurP, if_pos ((h u).mp hu)]
      exact ih s1 s2 h
    · rw [firstOccurP, if_neg hu, firstOccurP, if_neg (fun hc => hu ((h u).mpr hc))]
      refine congrArg _ (ih (u :: s1) (u :: s2) ?_)
      intro x
      simp only [List.mem_cons]
      exact or_congr Iff.rfl (h x)

theorem dedupSubs_spec (fuel : Nat) (ss : List ProtocolFile)
    (anns : List (String × ProtocolFile)) (seen : List String)
    (h : uidAnnotate fuel ss = .ok anns) :
    ∃ seenOut, dedupSubs fuel ss seen = .ok ((firstOccurP anns seen).map Prod.snd, seenOut) ∧
      ∀ x, x ∈ seenOut ↔ (x ∈ (firstOccurP anns seen).map Prod.fst ∨ x ∈ seen) := by
  induction ss generalizing anns seen with
  | nil =>
    unfold uidAnnotate at h
    injection h with h
    subst h
    exact ⟨seen, rfl, by simp [firstOccurP]⟩
  | cons s ss ih =>
    unfold uidAnnotate at h
    split at h
    · exact absurd h (by simp)
    · rename_i u s' huid
      split at h
      · exact absurd h (by simp)
      · rename_i rest hrest
        injection h with h
        subst h
        unfold dedupSubs
        rw [huid]
        dsimp only
        by_cases hu : u ∈ seen
        · rw [if_pos hu]
          rw [firstOccurP, if_pos hu]
          exact ih rest seen hrest
        · rw [if_neg hu]
          obtain ⟨seenOut, hd, hiff⟩ := ih rest (u :: seen) hrest
          rw [hd]
          rw [firstOccurP, if_neg hu]
          refine ⟨seenOut, rfl, ?_⟩
          intro x
          rw [hiff x]
          simp only [List.map_cons, List.mem_cons]
          tauto

theorem firstOccurP_append (l1 l2 : List (String × ProtocolFile)) (seen S : List String)
    (hS : ∀ x, x ∈ S ↔ (x ∈ (firstOccurP l1 seen).map Prod.fst ∨ x ∈ seen)) :
    firstOccurP (l1 ++ l2) seen = firstOccurP l1 seen ++ firstOccurP l2 S := by
  induction l1 generalizing seen S with
  | nil =>
    simp only [List.nil_append, firstOccurP]
    exact firstOccurP_congr l2 seen S (fun x => by
      have := hS x
      simp only [firstOccurP, List.map_nil, List.not_mem_nil, false_or] at this
      exact this.symm)
  | cons e l1' ih =>
    obtain ⟨u, f⟩ := e
    by_cases hu : u ∈ seen
    · rw [List.cons_append, firstOccurP, if_pos hu, firstOccurP, if_pos hu]
      refine ih seen S (fun x => ?_)
      have := hS x
      rwa [firstOccurP, if_pos hu] at this
    · rw [List.cons_append, firstOccurP, if_neg hu, firstOccurP, if_neg hu,
        List.cons_append]
      refine congrArg _ (ih (u :: seen) S (fun x => ?_))
      have := hS x
      rw [firstOccurP, if_neg hu] at this
      simp only [List.map_cons, List.mem_cons] at this ⊢
      tauto

theorem firstOccurP_nodup (l : List (String × ProtocolFile)) (seen : List String) :
    ((firstOccurP l seen).map Prod.fst).Nodup ∧
    ∀ x ∈ (firstOccurP l seen).map Prod.fst, x ∉ seen := by
  induction l generalizing seen with
  | nil => simp [firstOccurP]
  | cons e rest ih =>
    obtain ⟨u, f⟩ := e
    by_cases hu : u ∈ seen
    · rw [firstOccurP, if_pos hu]
      exact ih seen
    · rw [firstOccurP, if_neg hu]
      obtain ⟨hnd, hmem⟩ := ih (u :: seen)
      simp only [List.map_cons, List.nodup_cons]
      refine ⟨⟨?_, hnd⟩, ?_⟩
      · intro hc
        exact (hmem u hc) (List.mem_cons_self _ _)
      · intro x hx
        rcases List.mem_cons.mp hx with rfl | hx'
        · exact hu
        · exact fun hc => (hmem x hx') (List.mem_cons_of_mem _ hc)

theorem filesDedupGo_firstOccur (fuel : Nat) (rs : List ProtocolFile)
    (all : List (String × ProtocolFile)) (seen : List String)
    (h : filesAllGo fuel rs = .ok all) :
    filesDedupGo fuel rs seen = .ok ((firstOccurP all seen).map Prod.snd) := by
  induction rs generalizing all seen with
  | nil =>
    unfold filesAllGo at h
    injection h with h
    subst h
    rfl
  | cons r rs ih =>
    unfold filesAllGo at h
    unfold filesDedupGo
    split at h
    · exact ih all seen h
    · exact absurd h (by simp)
    · split at h
      · exact absurd h (by simp)
      · rename_i subs hsubs
        split at h
        · exact absurd h (by simp)
        · rename_i anns hanns
          split at h
          · exact absurd h (by simp)
          · rename_i rest hrest
            injection h with h
            subst h
            obtain ⟨seenOut, hd, hiff⟩ := dedupSubs_spec fuel subs anns seen hanns
            rw [hd]
            dsimp only
            rw [ih rest seenOut hrest,
              firstOccurP_append anns rest seen seenOut hiff]
            simp

/-- C2: `Protocol.files` yields, from the concatenated record streams of all
subset and trial methods, exactly the first occurrence of every derived
identity key (`database/uri`, or `database/uri_channel` when a channel is
present, as computed by `get_unique_identifier`): the output is the
first-occurrence filter of the undeduplicated expanded stream, and the
identity keys of the yielded records are pairwise distinct — each physical
file appears at most once, later duplicates being silently dropped. -/
theorem protocolFiles_first_occurrence_dedup (fuel : Nat)
    (methods : List (List ProtocolFile)) (all : List (String × ProtocolFile))
    (h : filesAllGo fuel methods.flatten = .ok all) :
    protocolFiles fuel methods = .ok ((firstOccurP all []).map Prod.snd) ∧
    ((firstOccurP all []).map Prod.fst).Nodup := by
  exact ⟨filesDedupGo_firstOccur fuel methods.flatten all [] h,
    (firstOccurP_nodup all []).1⟩

/-- Witness for C2: two methods yield three records, two of which share the
identity key `D/f1`; `files()` yields the first occurrence of each key
exactly once. -/
theorem protocolFiles_first_occurrence_dedup_witness :
    protocolFiles 5
        [[(⟨[("uri", Value.str "f1"), ("database", Value.str "D")], [], []⟩ : ProtocolFile)],
         [⟨[("uri", Value.str "f1"), ("database", Value.str "D"), ("x", Value.int 1)],
            [], []⟩,
          ⟨[("uri", Value.str "f2"), ("database", Value.str "D")], [], []⟩]] =
      .ok ((firstOccurP
          [("D/f1",
            (⟨[("uri", Value.str "f1"), ("database", Value.str "D")], [], []⟩ : ProtocolFile)),
           ("D/f1",
            ⟨[("uri", Value.str "f1"), ("database", Value.str "D"), ("x", Value.int 1)],
              [], []⟩),
           ("D/f2",
            ⟨[("uri", Value.str "f2"), ("database", Value.str "D")], [], []⟩)] []).map
        Prod.snd) ∧
    ((firstOccurP
        [("D/f1",
          (⟨[("uri", Value.str "f1"), ("database", Value.str "D")], [], []⟩ : ProtocolFile)),
         ("D/f1",
          ⟨[("uri", Value.str "f1"), ("database", Value.str "D"), ("x", Value.int 1)],
            [], []⟩),
         ("D/f2",
          ⟨[("uri", Value.str "f2"), ("database", Value.str "D")], [], []⟩)] []).map
      Prod.fst).Nodup :=
  protocolFiles_first_occurrence_dedup 5
    [[(⟨[("uri", Value.str "f1"), ("database", Value.str "D")], [], []⟩ : ProtocolFile)],
     [⟨[("uri", Value.str "f1"), ("database", Value.str "D"), ("x", Value.int 1)], [], []⟩,
      ⟨[("uri", Value.str "f2"), ("database", Value.str "D")], [], []⟩]]
    [("D/f1",
      (⟨[("uri", Value.str "f1"), ("database", Value.str "D")], [], []⟩ : ProtocolFile)),
     ("D/f1",
      ⟨[("uri", Value.str "f1"), ("database", Value.str "D"), ("x", Value.int 1)], [], []⟩),
     ("D/f2",
      ⟨[("uri", Value.str "f2"), ("database", Value.str "D")], [], []⟩)]
    (by rfl)

/-- C9: deleting a key that is pending but has no eager value first removes
the pending loader, then raises the missing-key error from the eager-store
deletion; afterwards the key is gone from the record entirely — the failed
deletion is not atomic. -/
theorem delItem_pending_only_not_atomic (f : ProtocolFile) (k : String) (ld : Loader)
    (hnd : (f.lazy.map Prod.fst).Nodup)
    (hlazy : alookup f.lazy k = some ld)
    (hstore : alookup f.store k = Option.none) :
    ProtocolFile.delItem f k =
      ({ f with lazy := aerase f.lazy k }, some PError.keyNotFound) ∧
    alookup (ProtocolFile.delItem f k).1.lazy k = Option.none ∧
    alookup (ProtocolFile.delItem f k).1.store k = Option.none := by
  have hdel : ProtocolFile.delItem f k =
      ({ f with lazy := aerase f.lazy k }, some PError.keyNotFound) := by
    unfold ProtocolFile.delItem
    rw [if_pos (by simp [hlazy])]
    simp only [hstore]
  refine ⟨hdel, ?_, ?_⟩
  · rw [hdel]
    exact alookup_aerase_of_nodup f.lazy k hnd
  · rw [hdel]
    exact hstore

/-- Witness for C9 at a concrete record with only a pending loader for key
`x`: the deletion errors yet the loader is gone. -/
theorem delItem_pending_only_not_atomic_witness :
    ProtocolFile.delItem (ProtocolFile.mk [] [("x", Loader.const Value.none)] []) "x" =
      ({ ProtocolFile.mk [] [("x", Loader.const Value.none)] [] with
          lazy := aerase [("x", Loader.const Value.none)] "x" }, some PError.keyNotFound) ∧
    alookup (ProtocolFile.delItem
        (ProtocolFile.mk [] [("x", Loader.const Value.none)] []) "x").1.lazy "x" =
      Option.none ∧
    alookup (ProtocolFile.delItem
        (ProtocolFile.mk [] [("x", Loader.const Value.none)] []) "x").1.store "x" =
      Option.none :=
  delItem_pending_only_not_atomic
    (ProtocolFile.mk [] [("x", Loader.const Value.none)] []) "x"
    (Loader.const Value.none) (by simp) (by rfl) (by rfl)

end PyannoteDB
